import Mathlib

/-!
Verification of the Prisma 2 TypeScript client generator
(`packages/client/src/generation/TSClient.ts`).

The generator is a pure transformation from an in-memory schema document
(DMMF: models, fields, enums, mappings, input types) to TypeScript source
text.  We embed the data model and the emitter functions shallowly: string
emitters become Lean functions on strings, and the *type-level* algebra of
the emitted conditional types (payload projection, `CheckSelect`) is
embedded as an evaluator from selector values to TypeScript type shapes.
-/

namespace Prisma

/-- Kind of a DMMF field: scalar, enum, or object (relation). -/
inductive FieldKind where
  | scalar
  | enum
  | object
  deriving DecidableEq, Repr

/-- Modelled from the spec: the fixed scalar-to-target-type table
`GraphQLScalarToJSTypeTable` lives in `runtime/utils/common.ts`, which is
absent from the sources; spec section 4.3 describes it as a fixed table
mapping date-like scalars to a date type and text scalars to a string
type, with unmapped scalars passing through unchanged.  Entries are a
single target name or a list of candidates (the JS table holds either a
string or an array of strings). -/
def GraphQLScalarToJSTypeTable : List (String × (String ⊕ List String)) :=
  [ ("Int", Sum.inl "number")
  , ("Float", Sum.inl "number")
  , ("String", Sum.inl "string")
  , ("Boolean", Sum.inl "boolean")
  , ("Long", Sum.inl "number")
  , ("DateTime", Sum.inr ["Date", "string"])
  , ("ID", Sum.inl "string")
  , ("UUID", Sum.inl "string")
  , ("Json", Sum.inl "JsonValue") ]

/-- Lookup in the scalar table (JS property access, `undefined` when absent). -/
def scalarTableLookup (t : String) : Option (String ⊕ List String) :=
  (GraphQLScalarToJSTypeTable.find? (fun e => e.1 == t)).map (·.2)

/-- The scalar type name used by `OutputField.toTS`:
`GraphQLScalarToJSTypeTable[field.type] || field.type`, and when the table
entry is an array the first element is taken (`fieldType = fieldType[0]`). -/
def scalarOutputTSName (t : String) : String :=
  match scalarTableLookup t with
  | some (Sum.inl s) => s
  | some (Sum.inr l) => l.headD t
  | none => t

/-- One field of a DMMF model (`BaseField`): name, kind, type name and the
`isList` / `isRequired` flags. -/
structure ModelField where
  name : String
  kind : FieldKind
  type : String
  isList : Bool
  isRequired : Bool
  deriving DecidableEq, Repr

/-- Embedding of `OutputField.toTS`: renders one field as
`name: Type` with `[]` appended when the field is a list and ` | null`
appended when the field is neither required nor a list. -/
def outputFieldToTS (f : ModelField) : String :=
  let fieldType := scalarOutputTSName f.type
  let arrayStr := if f.isList then "[]" else ""
  let nullableStr := if !f.isRequired && !f.isList then " | null" else ""
  f.name ++ ": " ++ fieldType ++ arrayStr ++ nullableStr

/-- The output-type reference carried by a `DMMF.SchemaField`
(`f.outputType`): target type name, kind and wrapping flags. -/
structure OutTypeRef where
  typeName : String
  kind : FieldKind
  isList : Bool
  isRequired : Bool
  deriving DecidableEq, Repr

/-- One field of a DMMF output type (`DMMF.SchemaField`). -/
structure SchemaField where
  name : String
  outputType : OutTypeRef
  deriving DecidableEq, Repr

/-- Embedding of `PayloadType.wrapType`: a required non-list type is left
bare, a list type is wrapped in `Array<...>`, and a non-required non-list
type gains ` | null`. -/
def wrapTypeStr (o : OutTypeRef) (str : String) : String :=
  if o.isRequired && !o.isList then str
  else if o.isList then "Array<" ++ str ++ ">"
  else if !o.isRequired then str ++ " | null"
  else str

/-- C7: a field that is both non-required and non-list is rendered with an
explicit ` | null` union appended, and a list field is rendered as a
sequence type (`[]` on output fields, `Array<...>` in payload wrapping)
with no outer nullable wrapper regardless of its `isRequired` flag. -/
theorem c7_list_nullable_wrapping (f : ModelField) (o : OutTypeRef) (s : String) :
    (f.isRequired = false → f.isList = false →
      outputFieldToTS f = f.name ++ ": " ++ scalarOutputTSName f.type ++ " | null")
    ∧ (f.isList = true →
      outputFieldToTS f = f.name ++ ": " ++ scalarOutputTSName f.type ++ "[]")
    ∧ (o.isList = true → wrapTypeStr o s = "Array<" ++ s ++ ">") := by
  refine ⟨?_, ?_, ?_⟩
  · intro hreq hlist
    simp [outputFieldToTS, hreq, hlist]
  · intro hlist
    simp [outputFieldToTS, hlist]
  · intro hlist
    simp [wrapTypeStr, hlist]

/-- Witness for C7 at concrete fields: a non-required non-list `String`
field, a required list field, and a required list relation reference. -/
theorem c7_list_nullable_wrapping_witness :
    outputFieldToTS ⟨"bio", FieldKind.scalar, "String", false, false⟩ =
      "bio: string | null"
    ∧ outputFieldToTS ⟨"tags", FieldKind.scalar, "String", true, true⟩ =
      "tags: string[]"
    ∧ wrapTypeStr ⟨"Post", FieldKind.object, true, true⟩ "PostGetPayload<S>" =
      "Array<PostGetPayload<S>>" := by
  obtain ⟨h1, h2, h3⟩ :=
    c7_list_nullable_wrapping ⟨"bio", FieldKind.scalar, "String", false, false⟩
      ⟨"Post", FieldKind.object, true, true⟩ "PostGetPayload<S>"
  refine ⟨h1 rfl rfl, ?_, h3 rfl⟩
  obtain ⟨_, h2', _⟩ :=
    c7_list_nullable_wrapping ⟨"tags", FieldKind.scalar, "String", true, true⟩
      ⟨"Post", FieldKind.object, true, true⟩ "PostGetPayload<S>"
  exact h2' rfl

/-! ## Schema model and the payload projection algebra -/

/-- A DMMF model: name and ordered fields (relation fields included,
with kind `object`). -/
structure Model where
  name : String
  fields : List ModelField

/-- A DMMF output type: name and schema fields. -/
structure OutputType where
  name : String
  fields : List SchemaField

/-- The slice of the DMMF document the projection algebra reads: models
(for the plain value types) and output types (for the relation fields). -/
structure Schema where
  models : List Model
  outputTypes : List OutputType

/-- The non-relation fields of a model: `model.fields.filter(f => f.kind
!== 'object')`, exactly the fields of the emitted plain value type. -/
def modelScalarFields (m : Model) : List ModelField :=
  m.fields.filter (fun f => f.kind != FieldKind.object)

def Schema.findModel (s : Schema) (name : String) : Option Model :=
  s.models.find? (fun m => m.name == name)

def Schema.findOutputType (s : Schema) (name : String) : Option OutputType :=
  s.outputTypes.find? (fun t => t.name == name)

/-- The scalar fields backing `keyof` of the emitted plain value type of
the named model (empty when the model does not resolve). -/
def modelScalarFieldsOf (s : Schema) (name : String) : List ModelField :=
  match s.findModel name with
  | some m => modelScalarFields m
  | none => []

/-- The relation fields used by `PayloadType.renderRelations`:
`type.fields.filter(f => f.outputType.kind === 'object')`. -/
def relationFields (s : Schema) (name : String) : List SchemaField :=
  match s.findOutputType name with
  | some t => t.fields.filter (fun f => f.outputType.kind == FieldKind.object)
  | none => []

/-- Shapes of TypeScript types occurring in the emitted payload algebra:
named base types, `never`, object types, `Array<...>`, `... | null`, and
intersections. -/
inductive TSType where
  | base (name : String)
  | never
  | obj (fields : List (String × TSType))
  | arr (t : TSType)
  | orNull (t : TSType)
  | inter (a b : TSType)

/-- Semantic counterpart of `OutputField.toTS` rendering: the type of one
plain field, with `[]` for lists and `| null` for non-required non-list
fields. -/
def outputFieldTSType (f : ModelField) : TSType :=
  let base := TSType.base (scalarOutputTSName f.type)
  if f.isList then TSType.arr base
  else if !f.isRequired then TSType.orNull base
  else base

/-- The emitted plain value type of a model (`export type Post = {...}`):
only the non-relation fields. -/
def modelPlainType (m : Model) : TSType :=
  TSType.obj ((modelScalarFields m).map (fun f => (f.name, outputFieldTSType f)))

/-- The meaning of the bare type reference `Post` emitted for the `S
extends true` and fallback branches of the payload type. -/
def plainOf (s : Schema) (name : String) : TSType :=
  match s.findModel name with
  | some m => modelPlainType m
  | none => TSType.never

/-- Semantic counterpart of `PayloadType.wrapType`. -/
def wrapType (o : OutTypeRef) (t : TSType) : TSType :=
  if o.isRequired && !o.isList then t
  else if o.isList then TSType.arr t
  else if !o.isRequired then TSType.orNull t
  else t

/-- Selector values the emitted `XGetPayload<S>` conditional type branches
on: the literals `true`, `false`, `null`, `undefined`, or an arguments
object whose `select` / `include` members are present or absent (an
object-literal member is a list of key/selector entries). -/
inductive SelVal where
  | tru
  | fls
  | nullv
  | undef
  | args (sel : Option (List (String × SelVal))) (incl : Option (List (String × SelVal)))

/-- Semantics of `TrueKeys<T>`: a key survives unless its value extends
`false | undefined | null`. -/
def trueKey : SelVal → Bool
  | SelVal.fls => false
  | SelVal.nullv => false
  | SelVal.undef => false
  | _ => true

mutual

/-- Evaluator for the emitted conditional type `XGetPayload<S, U = keyof
S>`: `S extends true` gives the plain value type, `S extends undefined`
gives `never`, an arguments object takes the `include` mapped type
(intersected with the plain type, and only emitted when the entity has
relation fields) when the `include` key is present, otherwise the `select`
mapped type when the `select` key is present, otherwise the plain type;
all remaining selector values fall through to the plain type. -/
def getPayload (s : Schema) (name : String) : SelVal → TSType
  | SelVal.tru => plainOf s name
  | SelVal.undef => TSType.never
  | SelVal.fls => plainOf s name
  | SelVal.nullv => plainOf s name
  | SelVal.args _ (some inclEntries) =>
    if (relationFields s name).isEmpty then plainOf s name
    else TSType.inter (plainOf s name) (TSType.obj (renderIncl s name inclEntries))
  | SelVal.args (some selEntries) none =>
    TSType.obj (renderSel s name selEntries)
  | SelVal.args none none => plainOf s name
termination_by sv => sizeOf sv
decreasing_by
  all_goals simp_wf
  all_goals omega

/-- The `include` mapped type `{[P in TrueKeys<S['include']>]: P extends
'rel' ? wrapped payload : ... : never}` evaluated at concrete entries:
falsy entries are dropped, relation keys recurse into the related payload
(wrapped per multiplicity), all other keys resolve to `never`. -/
def renderIncl (s : Schema) (name : String) : List (String × SelVal) → List (String × TSType)
  | [] => []
  | (k, v) :: rest =>
    (if trueKey v then
      [(k, match (relationFields s name).find? (fun r => r.name == k) with
           | some r => wrapType r.outputType (getPayload s r.outputType.typeName v)
           | none => TSType.never)]
     else []) ++ renderIncl s name rest
termination_by l => sizeOf l
decreasing_by
  all_goals simp_wf
  all_goals omega

/-- The `select` mapped type, whose body additionally starts with the
scalar pass-through `P extends keyof Post ? Post[P] : ...`. -/
def renderSel (s : Schema) (name : String) : List (String × SelVal) → List (String × TSType)
  | [] => []
  | (k, v) :: rest =>
    (if trueKey v then
      [(k, match (modelScalarFieldsOf s name).find? (fun f => f.name == k) with
           | some f => outputFieldTSType f
           | none =>
             match (relationFields s name).find? (fun r => r.name == k) with
             | some r => wrapType r.outputType (getPayload s r.outputType.typeName v)
             | none => TSType.never)]
     else []) ++ renderSel s name rest
termination_by l => sizeOf l
decreasing_by
  all_goals simp_wf
  all_goals omega

end

/-- The type a select key resolves to in the emitted mapped type:
scalar pass-through first (`P extends keyof Post ? Post[P]`), then the
relation conditionals, then `never`. -/
def selectKeyTy (s : Schema) (name k : String) (v : SelVal) : TSType :=
  match (modelScalarFieldsOf s name).find? (fun f => f.name == k) with
  | some f => outputFieldTSType f
  | none =>
    match (relationFields s name).find? (fun r => r.name == k) with
    | some r => wrapType r.outputType (getPayload s r.outputType.typeName v)
    | none => TSType.never

/-- The type an include key resolves to in the emitted mapped type: only
the relation conditionals, then `never`. -/
def includeKeyTy (s : Schema) (name k : String) (v : SelVal) : TSType :=
  match (relationFields s name).find? (fun r => r.name == k) with
  | some r => wrapType r.outputType (getPayload s r.outputType.typeName v)
  | none => TSType.never

theorem renderSel_nil (s : Schema) (name : String) : renderSel s name [] = [] := by
  simp [renderSel]

theorem renderSel_cons (s : Schema) (name k : String) (v : SelVal)
    (rest : List (String × SelVal)) :
    renderSel s name ((k, v) :: rest) =
      (if trueKey v then [(k, selectKeyTy s name k v)] else []) ++ renderSel s name rest := by
  rw [renderSel, selectKeyTy]

theorem renderIncl_nil (s : Schema) (name : String) : renderIncl s name [] = [] := by
  simp [renderIncl]

theorem renderIncl_cons (s : Schema) (name k : String) (v : SelVal)
    (rest : List (String × SelVal)) :
    renderIncl s name ((k, v) :: rest) =
      (if trueKey v then [(k, includeKeyTy s name k v)] else []) ++ renderIncl s name rest := by
  rw [renderIncl, includeKeyTy]

theorem getPayload_select (s : Schema) (name : String)
    (selEntries : List (String × SelVal)) :
    getPayload s name (SelVal.args (some selEntries) none) =
      TSType.obj (renderSel s name selEntries) := by
  rw [getPayload]

theorem getPayload_include (s : Schema) (name : String)
    (sel : Option (List (String × SelVal))) (inclEntries : List (String × SelVal)) :
    getPayload s name (SelVal.args sel (some inclEntries)) =
      if (relationFields s name).isEmpty then plainOf s name
      else TSType.inter (plainOf s name) (TSType.obj (renderIncl s name inclEntries)) := by
  rw [getPayload]

/-- Property lookup on an evaluated TypeScript type shape: field of an
object type, and the standard intersection rule (a property present in
both conjuncts has the intersection of the two property types). -/
def fieldTy : TSType → String → Option TSType
  | TSType.obj fields, k => (fields.find? (fun e => e.1 == k)).map (·.2)
  | TSType.inter a b, k =>
    match fieldTy a k, fieldTy b k with
    | some x, some y => some (TSType.inter x y)
    | some x, none => some x
    | none, some y => some y
    | none, none => none
  | _, _ => none

theorem renderEntries_keys
    (render : List (String × SelVal) → List (String × TSType))
    (B : String → SelVal → TSType)
    (hnil : render [] = [])
    (hcons : ∀ k v rest, render ((k, v) :: rest) =
      (if trueKey v then [(k, B k v)] else []) ++ render rest) :
    ∀ (l : List (String × SelVal)) (e : String × TSType),
      e ∈ render l → e.1 ∈ l.map Prod.fst := by
  intro l
  induction l with
  | nil =>
    intro e he
    rw [hnil] at he
    cases he
  | cons hd tl ih =>
    obtain ⟨k, v⟩ := hd
    intro e he
    rw [hcons] at he
    rcases List.mem_append.1 he with h | h
    · split at h
      · rw [List.mem_singleton] at h
        subst h
        simp
      · cases h
    · have := ih e h
      simpa using Or.inr this

theorem renderEntries_find?
    (render : List (String × SelVal) → List (String × TSType))
    (B : String → SelVal → TSType)
    (hnil : render [] = [])
    (hcons : ∀ k v rest, render ((k, v) :: rest) =
      (if trueKey v then [(k, B k v)] else []) ++ render rest) :
    ∀ (l : List (String × SelVal)), (l.map Prod.fst).Nodup → ∀ (k : String),
      (render l).find? (fun e => e.1 == k) =
        (l.find? (fun e => e.1 == k)).bind
          (fun e => if trueKey e.2 then some (e.1, B e.1 e.2) else none) := by
  intro l
  induction l with
  | nil =>
    intro _ k
    rw [hnil]
    rfl
  | cons hd tl ih =>
    obtain ⟨k0, v0⟩ := hd
    intro hnd k
    have hnd' : (tl.map Prod.fst).Nodup := (List.nodup_cons.1 (by simpa using hnd)).2
    have hk0 : k0 ∉ tl.map Prod.fst := (List.nodup_cons.1 (by simpa using hnd)).1
    rw [hcons]
    cases htk : trueKey v0 with
    | true =>
      cases hbeq : (k0 == k) with
      | true =>
        simp [List.find?_cons, hbeq, htk]
      | false =>
        simp only [if_true, List.singleton_append, List.find?_cons, hbeq]
        rw [ih hnd' k]
    | false =>
      rw [if_neg (by simp), List.nil_append]
      cases hbeq : (k0 == k) with
      | true =>
        have hkk : k0 = k := by simpa using hbeq
        subst hkk
        have hnone : (render tl).find? (fun e => e.1 == k0) = none := by
          rw [List.find?_eq_none]
          intro x hx hpx
          have hxk : x.1 = k0 := by simpa using hpx
          have := renderEntries_keys render B hnil hcons tl x hx
          rw [hxk] at this
          exact hk0 this
        simp [List.find?_cons, hbeq, htk, hnone]
      | false =>
        simp only [List.find?_cons, hbeq]
        rw [ih hnd' k]

theorem renderSel_find? (s : Schema) (name : String)
    (l : List (String × SelVal)) (hnd : (l.map Prod.fst).Nodup) (k : String) :
    (renderSel s name l).find? (fun e => e.1 == k) =
      (l.find? (fun e => e.1 == k)).bind
        (fun e => if trueKey e.2 then some (e.1, selectKeyTy s name e.1 e.2) else none) :=
  renderEntries_find? (renderSel s name) (selectKeyTy s name)
    (renderSel_nil s name) (renderSel_cons s name) l hnd k

theorem renderIncl_find? (s : Schema) (name : String)
    (l : List (String × SelVal)) (hnd : (l.map Prod.fst).Nodup) (k : String) :
    (renderIncl s name l).find? (fun e => e.1 == k) =
      (l.find? (fun e => e.1 == k)).bind
        (fun e => if trueKey e.2 then some (e.1, includeKeyTy s name e.1 e.2) else none) :=
  renderEntries_find? (renderIncl s name) (includeKeyTy s name)
    (renderIncl_nil s name) (renderIncl_cons s name) l hnd k

theorem fieldTy_plainOf (s : Schema) (name k : String) :
    fieldTy (plainOf s name) k =
      ((modelScalarFieldsOf s name).find? (fun f => f.name == k)).map
        (fun f => outputFieldTSType f) := by
  unfold plainOf modelScalarFieldsOf
  cases hm : s.findModel name with
  | none => simp [fieldTy]
  | some m =>
    show fieldTy (modelPlainType m) k = _
    unfold modelPlainType fieldTy
    rw [List.find?_map]
    have hp : ((fun (e : String × TSType) => e.1 == k) ∘ fun f => (f.name, outputFieldTSType f))
        = fun f => f.name == k := rfl
    rw [hp]
    cases (modelScalarFields m).find? (fun f => f.name == k) <;> rfl

theorem fieldTy_obj (l : List (String × TSType)) (k : String) :
    fieldTy (TSType.obj l) k = (l.find? (fun e => e.1 == k)).map (·.2) := rfl

theorem fieldTy_inter (a b : TSType) (k : String) :
    fieldTy (TSType.inter a b) k =
      match fieldTy a k, fieldTy b k with
      | some x, some y => some (TSType.inter x y)
      | some x, none => some x
      | none, some y => some y
      | none, none => none := rfl

/-! ## CheckSelect -/

/-- The error branch of the emitted `CheckSelect` conditional type: the
string literal type the call resolves to when both members are present. -/
def checkSelectError : TSType :=
  TSType.base "Please either choose `select` or `include`"

/-- Embedding of the emitted conditional type `CheckSelect<T, S, U>`:
`T extends SelectAndInclude` (both keys present) gives the error string
literal type, `T extends HasSelect` or `T extends HasInclude` gives `U`,
anything else gives `S`. -/
def checkSelect (t : SelVal) (s u : TSType) : TSType :=
  match t with
  | SelVal.args (some _) (some _) => checkSelectError
  | SelVal.args (some _) none => u
  | SelVal.args none (some _) => u
  | _ => s

/-- C2: a selector carrying both `select` and `include` resolves, in the
emitted `CheckSelect` type that guards every delegate signature, to the
fixed error string literal type; it is never resolved to the plain result
`S` nor to the projected result `U` chosen for single-member selectors, so
neither member is silently preferred. -/
theorem c2_mutual_exclusivity (selE inclE : List (String × SelVal)) (s u : TSType) :
    checkSelect (SelVal.args (some selE) (some inclE)) s u = checkSelectError
    ∧ (s ≠ checkSelectError → checkSelect (SelVal.args (some selE) (some inclE)) s u ≠ s)
    ∧ (u ≠ checkSelectError → checkSelect (SelVal.args (some selE) (some inclE)) s u ≠ u)
    ∧ checkSelect (SelVal.args (some selE) none) s u = u
    ∧ checkSelect (SelVal.args none (some inclE)) s u = u
    ∧ checkSelect SelVal.tru s u = s := by
  refine ⟨rfl, ?_, ?_, rfl, rfl, rfl⟩
  · intro hs h
    have h2 : checkSelectError = s := h
    exact hs h2.symm
  · intro hu h
    have h2 : checkSelectError = u := h
    exact hu h2.symm

/-- Witness for C2: a concrete selector carrying both members, with the
two concrete result types of a delegate signature. -/
theorem c2_mutual_exclusivity_witness :
    checkSelect (SelVal.args (some [("title", SelVal.tru)]) (some [("author", SelVal.tru)]))
        (TSType.base "Promise<Array<Post>>") (TSType.base "Promise<Array<PostGetPayload<T>>>")
      = checkSelectError
    ∧ checkSelect (SelVal.args (some [("title", SelVal.tru)]) (some [("author", SelVal.tru)]))
        (TSType.base "Promise<Array<Post>>") (TSType.base "Promise<Array<PostGetPayload<T>>>")
      ≠ TSType.base "Promise<Array<Post>>"
    ∧ checkSelect (SelVal.args (some [("title", SelVal.tru)]) (some [("author", SelVal.tru)]))
        (TSType.base "Promise<Array<Post>>") (TSType.base "Promise<Array<PostGetPayload<T>>>")
      ≠ TSType.base "Promise<Array<PostGetPayload<T>>>" := by
  obtain ⟨h1, h2, h3, _, _, _⟩ :=
    c2_mutual_exclusivity [("title", SelVal.tru)] [("author", SelVal.tru)]
      (TSType.base "Promise<Array<Post>>") (TSType.base "Promise<Array<PostGetPayload<T>>>")
  refine ⟨h1, h2 ?_, h3 ?_⟩
  · intro h
    have h4 : "Promise<Array<Post>>" = "Please either choose `select` or `include`" :=
      TSType.base.inj h
    exact absurd h4 (by decide)
  · intro h
    have h4 : "Promise<Array<PostGetPayload<T>>>" = "Please either choose `select` or `include`" :=
      TSType.base.inj h
    exact absurd h4 (by decide)

/-! ## A concrete demonstration schema -/

def postIdField : ModelField := ⟨"id", FieldKind.scalar, "Int", false, true⟩

def postTitleField : ModelField := ⟨"title", FieldKind.scalar, "String", false, true⟩

def postAuthorModelField : ModelField := ⟨"author", FieldKind.object, "User", false, true⟩

def userEmailField : ModelField := ⟨"email", FieldKind.scalar, "String", false, true⟩

def postModel : Model := ⟨"Post", [postIdField, postTitleField, postAuthorModelField]⟩

def userModel : Model :=
  ⟨"User", [⟨"id", FieldKind.scalar, "Int", false, true⟩, userEmailField,
    ⟨"posts", FieldKind.object, "Post", true, true⟩]⟩

def postAuthorRel : SchemaField := ⟨"author", ⟨"User", FieldKind.object, false, true⟩⟩

def userPostsRel : SchemaField := ⟨"posts", ⟨"Post", FieldKind.object, true, true⟩⟩

def postOutputType : OutputType :=
  ⟨"Post", [⟨"id", ⟨"Int", FieldKind.scalar, false, true⟩⟩,
    ⟨"title", ⟨"String", FieldKind.scalar, false, true⟩⟩, postAuthorRel]⟩

def userOutputType : OutputType :=
  ⟨"User", [⟨"id", ⟨"Int", FieldKind.scalar, false, true⟩⟩,
    ⟨"email", ⟨"String", FieldKind.scalar, false, true⟩⟩, userPostsRel]⟩

def demoSchema : Schema := ⟨[postModel, userModel], [postOutputType, userOutputType]⟩

/-! ## C1: the select projection -/

/-- C1 counterexample: the key `id` is present in `select` (assigned the
`false` literal) and names a scalar field of `Post`, yet the emitted
payload type evaluates to the empty object type — `TrueKeys` drops keys
assigned `false`, so the key is omitted instead of being mapped to the
field's own type as the claim states for every key of `select`. -/
theorem c1_select_counterexample :
    getPayload demoSchema "Post" (SelVal.args (some [("id", SelVal.fls)]) none) =
      TSType.obj []
    ∧ fieldTy (getPayload demoSchema "Post"
        (SelVal.args (some [("id", SelVal.fls)]) none)) "id" = none
    ∧ (modelScalarFieldsOf demoSchema "Post").find? (fun f => f.name == "id") =
      some postIdField := by
  have h1 : getPayload demoSchema "Post" (SelVal.args (some [("id", SelVal.fls)]) none) =
      TSType.obj [] := by
    rw [getPayload_select, renderSel_cons, renderSel_nil]
    simp [trueKey]
  refine ⟨h1, ?_, ?_⟩
  · rw [h1]
    rfl
  · rfl

/-- C1 (amended): for a selector whose `select` member is present (with
pairwise-distinct keys, as in an object literal), the emitted payload
type maps each key of `select` assigned a truthy value to the entity's
own field type when the key names a scalar field, to the recursively
computed payload of the related entity at the assigned selector value
(wrapped per the relation's multiplicity) when it names a relation field,
and to `never` when it matches no field; keys absent from `select`, and
keys assigned `false`, `null`, or `undefined`, are omitted from the
payload entirely. -/
theorem c1_select_projection (s : Schema) (name : String)
    (entries : List (String × SelVal)) (hnd : (entries.map Prod.fst).Nodup) (k : String) :
    (∀ v f, entries.find? (fun e => e.1 == k) = some (k, v) → trueKey v = true →
      (modelScalarFieldsOf s name).find? (fun f2 => f2.name == k) = some f →
      fieldTy (getPayload s name (SelVal.args (some entries) none)) k =
        some (outputFieldTSType f))
    ∧ (∀ v r, entries.find? (fun e => e.1 == k) = some (k, v) → trueKey v = true →
      (modelScalarFieldsOf s name).find? (fun f2 => f2.name == k) = none →
      (relationFields s name).find? (fun r2 => r2.name == k) = some r →
      fieldTy (getPayload s name (SelVal.args (some entries) none)) k =
        some (wrapType r.outputType (getPayload s r.outputType.typeName v)))
    ∧ (∀ v, entries.find? (fun e => e.1 == k) = some (k, v) → trueKey v = true →
      (modelScalarFieldsOf s name).find? (fun f2 => f2.name == k) = none →
      (relationFields s name).find? (fun r2 => r2.name == k) = none →
      fieldTy (getPayload s name (SelVal.args (some entries) none)) k = some TSType.never)
    ∧ (entries.find? (fun e => e.1 == k) = none →
      fieldTy (getPayload s name (SelVal.args (some entries) none)) k = none)
    ∧ (∀ v, entries.find? (fun e => e.1 == k) = some (k, v) → trueKey v = false →
      fieldTy (getPayload s name (SelVal.args (some entries) none)) k = none) := by
  have hbase : ∀ (x : Option (String × SelVal)),
      entries.find? (fun e => e.1 == k) = x →
      fieldTy (getPayload s name (SelVal.args (some entries) none)) k =
        (x.bind (fun e => if trueKey e.2 then
          some (e.1, selectKeyTy s name e.1 e.2) else none)).map (·.2) := by
    intro x hx
    rw [getPayload_select, fieldTy_obj, renderSel_find? s name entries hnd k, hx]
  refine ⟨?_, ?_, ?_, ?_, ?_⟩
  · intro v f hfind htrue hscalar
    rw [hbase _ hfind]
    simp [htrue, selectKeyTy, hscalar]
  · intro v r hfind htrue hscalar hrel
    rw [hbase _ hfind]
    simp [htrue, selectKeyTy, hscalar, hrel]
  · intro v hfind htrue hscalar hrel
    rw [hbase _ hfind]
    simp [htrue, selectKeyTy, hscalar, hrel]
  · intro hfind
    rw [hbase _ hfind]
    rfl
  · intro v hfind hfalse
    rw [hbase _ hfind]
    simp [hfalse]

/-- Witness for C1 at the demonstration schema: a selector selecting the
scalar `title`, the relation `author` (with a nested select), and an
unknown key `bogus`; the scalar passes through as `string`, the relation
resolves to the recursive `User` payload, the unknown key resolves to
`never`, and the unselected `id` is omitted. -/
theorem c1_select_projection_witness :
    fieldTy (getPayload demoSchema "Post" (SelVal.args (some
        [("title", SelVal.tru),
         ("author", SelVal.args (some [("email", SelVal.tru)]) none),
         ("bogus", SelVal.tru)]) none)) "title" = some (TSType.base "string")
    ∧ fieldTy (getPayload demoSchema "Post" (SelVal.args (some
        [("title", SelVal.tru),
         ("author", SelVal.args (some [("email", SelVal.tru)]) none),
         ("bogus", SelVal.tru)]) none)) "author" =
      some (getPayload demoSchema "User" (SelVal.args (some [("email", SelVal.tru)]) none))
    ∧ fieldTy (getPayload demoSchema "Post" (SelVal.args (some
        [("title", SelVal.tru),
         ("author", SelVal.args (some [("email", SelVal.tru)]) none),
         ("bogus", SelVal.tru)]) none)) "bogus" = some TSType.never
    ∧ fieldTy (getPayload demoSchema "Post" (SelVal.args (some
        [("title", SelVal.tru),
         ("author", SelVal.args (some [("email", SelVal.tru)]) none),
         ("bogus", SelVal.tru)]) none)) "id" = none := by
  have hnd : (([("title", SelVal.tru),
      ("author", SelVal.args (some [("email", SelVal.tru)]) none),
      ("bogus", SelVal.tru)] : List (String × SelVal)).map Prod.fst).Nodup := by
    simp
  refine ⟨?_, ?_, ?_, ?_⟩
  · have h := (c1_select_projection demoSchema "Post" _ hnd "title").1
      SelVal.tru postTitleField rfl rfl rfl
    rw [h]
    rfl
  · have h := (c1_select_projection demoSchema "Post" _ hnd "author").2.1
      (SelVal.args (some [("email", SelVal.tru)]) none) postAuthorRel rfl rfl rfl rfl
    rw [h]
    rfl
  · exact (c1_select_projection demoSchema "Post" _ hnd "bogus").2.2.1
      SelVal.tru rfl rfl rfl rfl
  · exact (c1_select_projection demoSchema "Post" _ hnd "id").2.2.2.1 rfl

/-! ## C3: the include projection -/

/-- C3 counterexample: on entity `Post` (which has a relation field), the
selector `{include: {id: true}}` names the scalar field `id`; the claim
says scalar fields are left at their defaults (`id: number`), but the
emitted type is `Post & {id: never}`, whose `id` property is
`number & never`, not the default field type. -/
theorem c3_include_counterexample :
    fieldTy (getPayload demoSchema "Post"
        (SelVal.args none (some [("id", SelVal.tru)]))) "id" =
      some (TSType.inter (TSType.base "number") TSType.never)
    ∧ some (TSType.inter (TSType.base "number") TSType.never) ≠
        some (outputFieldTSType postIdField) := by
  constructor
  · rw [getPayload_include, if_neg (by decide), renderIncl_cons, renderIncl_nil]
    rfl
  · intro h
    have h2 := Option.some.inj h
    exact TSType.noConfusion h2

/-- C3 (amended): for a selector whose `include` member is present, on an
entity having at least one relation field, the emitted payload is the
intersection of the entity's full plain value type with the include
mapped type: each relation key of `include` assigned a truthy value is
overridden by the recursively computed payload of the related entity
(wrapped in a sequence type when the relation is a list, with `| null`
when non-required and non-list, bare when required and non-list); scalar
fields not named in `include` keep their default types; a non-relation
key named in `include` intersects that property with `never` instead of
keeping its default. -/
theorem c3_include_projection (s : Schema) (name : String)
    (selm : Option (List (String × SelVal)))
    (entries : List (String × SelVal)) (hnd : (entries.map Prod.fst).Nodup)
    (hrels : (relationFields s name).isEmpty = false) (k : String) :
    (∀ v r, entries.find? (fun e => e.1 == k) = some (k, v) → trueKey v = true →
      (modelScalarFieldsOf s name).find? (fun f => f.name == k) = none →
      (relationFields s name).find? (fun r2 => r2.name == k) = some r →
      fieldTy (getPayload s name (SelVal.args selm (some entries))) k =
        some (wrapType r.outputType (getPayload s r.outputType.typeName v)))
    ∧ (∀ f, entries.find? (fun e => e.1 == k) = none →
      (modelScalarFieldsOf s name).find? (fun f2 => f2.name == k) = some f →
      fieldTy (getPayload s name (SelVal.args selm (some entries))) k =
        some (outputFieldTSType f))
    ∧ (∀ (o : OutTypeRef) (t : TSType),
        (o.isList = true → wrapType o t = TSType.arr t)
        ∧ (o.isRequired = false → o.isList = false → wrapType o t = TSType.orNull t)
        ∧ (o.isRequired = true → o.isList = false → wrapType o t = t)) := by
  have hpay : getPayload s name (SelVal.args selm (some entries)) =
      TSType.inter (plainOf s name) (TSType.obj (renderIncl s name entries)) := by
    rw [getPayload_include, hrels]
    rfl
  refine ⟨?_, ?_, ?_⟩
  · intro v r hfind htrue hscalar hrel
    rw [hpay, fieldTy_inter, fieldTy_plainOf, hscalar, fieldTy_obj,
      renderIncl_find? s name entries hnd k, hfind]
    simp [htrue, includeKeyTy, hrel]
  · intro f hfind hscalar
    rw [hpay, fieldTy_inter, fieldTy_plainOf, hscalar, fieldTy_obj,
      renderIncl_find? s name entries hnd k, hfind]
    rfl
  · intro o t
    refine ⟨?_, ?_, ?_⟩
    · intro hlist
      simp [wrapType, hlist]
    · intro hreq hlist
      simp [wrapType, hreq, hlist]
    · intro hreq hlist
      simp [wrapType, hreq, hlist]

/-- Witness for C3 at the demonstration schema: including the relation
`author` yields the recursive `User` payload at that key, the scalar
`title` keeps its default `string` type, and the three wrapping modes are
exercised on concrete output-type references. -/
theorem c3_include_projection_witness :
    fieldTy (getPayload demoSchema "Post"
        (SelVal.args none (some [("author", SelVal.tru)]))) "author" =
      some (getPayload demoSchema "User" SelVal.tru)
    ∧ fieldTy (getPayload demoSchema "Post"
        (SelVal.args none (some [("author", SelVal.tru)]))) "title" =
      some (TSType.base "string")
    ∧ wrapType ⟨"Post", FieldKind.object, true, true⟩ (TSType.base "X") =
      TSType.arr (TSType.base "X")
    ∧ wrapType ⟨"User", FieldKind.object, false, false⟩ (TSType.base "X") =
      TSType.orNull (TSType.base "X")
    ∧ wrapType ⟨"User", FieldKind.object, false, true⟩ (TSType.base "X") =
      TSType.base "X" := by
  have hnd : (([("author", SelVal.tru)] : List (String × SelVal)).map Prod.fst).Nodup := by
    simp
  obtain ⟨hrel, hscal, hwrap⟩ :=
    c3_include_projection demoSchema "Post" none [("author", SelVal.tru)] hnd rfl "author"
  obtain ⟨_, hscal2, _⟩ :=
    c3_include_projection demoSchema "Post" none [("author", SelVal.tru)] hnd rfl "title"
  refine ⟨?_, ?_, ?_, ?_, ?_⟩
  · have h := hrel SelVal.tru postAuthorRel rfl rfl rfl rfl
    rw [h]
    rfl
  · exact hscal2 postTitleField rfl rfl
  · exact (hwrap ⟨"Post", FieldKind.object, true, true⟩ (TSType.base "X")).1 rfl
  · exact (hwrap ⟨"User", FieldKind.object, false, false⟩ (TSType.base "X")).2.1 rfl rfl
  · exact (hwrap ⟨"User", FieldKind.object, false, true⟩ (TSType.base "X")).2.2 rfl rfl

/-! ## Input fields (argument rendering) -/

/-- One candidate input type of an argument field (one element of the
`SchemaArg.inputType` array): type name, kind and the three flags. -/
structure InputTypeRef where
  typ : String
  kind : FieldKind
  isList : Bool
  isRequired : Bool
  isNullable : Bool
  deriving DecidableEq, Repr

/-- A DMMF argument field (`DMMF.SchemaArg`): name, one or more candidate
input types, optional comment. -/
structure SchemaArg where
  name : String
  inputType : List InputTypeRef
  comment : Option String := none
  deriving DecidableEq, Repr

/-- The mapped value of one candidate computed inside the flatMap of
`InputField.toTS`: an object candidate uses its type name (Base-prefixed
under the filter flag); a scalar candidate goes through the table
(`GraphQLScalarToJSTypeTable[t.type] || t.type`), which can yield a
string or an array of strings. -/
def inputCandType (prefixFilter : Bool) (t : InputTypeRef) : String ⊕ List String :=
  if t.kind == FieldKind.object then
    Sum.inl (if prefixFilter then "Base" ++ t.typ else t.typ)
  else
    match scalarTableLookup t.typ with
    | some v => v
    | none => Sum.inl t.typ

/-- The union pieces one candidate contributes (flatMap flattens array
table entries into the union). -/
def inputCandPieces (prefixFilter : Bool) (t : InputTypeRef) : List String :=
  match inputCandType prefixFilter t with
  | Sum.inl s => [s]
  | Sum.inr l => l

/-- Whether one candidate sets the `hasNull` flag (`type === 'null'` on
the mapped value, which an array value never satisfies). -/
def inputCandIsNull (prefixFilter : Bool) (t : InputTypeRef) : Bool :=
  match inputCandType prefixFilter t with
  | Sum.inl s => s == "null"
  | Sum.inr _ => false

/-- Embedding of `wrapComment`: wraps a possibly multi-line string into a
JSDoc block comment. -/
def wrapComment (str : String) : String :=
  "/**\n" ++ String.intercalate "\n" ((str.splitOn "\n").map (fun l => " * " ++ l)) ++ "\n**/"

/-- The `nullableStr` component of `InputField.toTS`: the implicitly
appended ` | null`, emitted when the first candidate is non-required and
nullable and no candidate already contributes a literal `null`. -/
def inputFieldNullableStr (prefixFilter : Bool) (fit : InputTypeRef)
    (all : List InputTypeRef) : String :=
  if !fit.isRequired && !(all.any (inputCandIsNull prefixFilter)) && fit.isNullable then
    " | null"
  else ""

/-- Embedding of `InputField.toTS`.  The union string joins the pieces of
all candidates; the `?` marker, the `Enumerable<...>` wrapping and the
implicit nullable suffix read `field.inputType[0]`.  An empty candidate
array is modelled as `none` (the JS code would throw reading a property
of `undefined`). -/
def inputFieldToTS (prefixFilter : Bool) (field : SchemaArg) : Option String :=
  match field.inputType with
  | [] => none
  | fit :: _ =>
    let fieldType :=
      String.intercalate " | " ((field.inputType.map (inputCandPieces prefixFilter)).flatten)
    let optionalStr := if fit.isRequired then "" else "?"
    let fieldType2 := if fit.isList then "Enumerable<" ++ fieldType ++ ">" else fieldType
    let nullableStr := inputFieldNullableStr prefixFilter fit field.inputType
    let jsdoc :=
      match field.comment with
      | some c => wrapComment c ++ "\n"
      | none => ""
    some (jsdoc ++ field.name ++ optionalStr ++ ": " ++ fieldType2 ++ nullableStr)

theorem inputCandType_congr (prefixFilter : Bool) (t u : InputTypeRef)
    (hty : t.typ = u.typ) (hk : t.kind = u.kind) :
    inputCandType prefixFilter t = inputCandType prefixFilter u := by
  unfold inputCandType
  rw [hty, hk]

theorem inputCandPieces_map_congr (prefixFilter : Bool) :
    ∀ (l1 l2 : List InputTypeRef),
      l1.map (fun t => (t.typ, t.kind)) = l2.map (fun t => (t.typ, t.kind)) →
      l1.map (inputCandPieces prefixFilter) = l2.map (inputCandPieces prefixFilter) := by
  intro l1
  induction l1 with
  | nil =>
    intro l2 h
    cases l2 with
    | nil => rfl
    | cons b bs => simp at h
  | cons a as ih =>
    intro l2 h
    cases l2 with
    | nil => simp at h
    | cons b bs =>
      simp only [List.map_cons, List.cons.injEq] at h
      obtain ⟨hab, hrest⟩ := h
      simp only [List.map_cons, List.cons.injEq]
      constructor
      · unfold inputCandPieces
        rw [inputCandType_congr prefixFilter a b
          (congrArg Prod.fst hab) (congrArg Prod.snd hab)]
      · exact ih bs hrest

theorem inputCandIsNull_any_congr (prefixFilter : Bool) :
    ∀ (l1 l2 : List InputTypeRef),
      l1.map (fun t => (t.typ, t.kind)) = l2.map (fun t => (t.typ, t.kind)) →
      l1.any (inputCandIsNull prefixFilter) = l2.any (inputCandIsNull prefixFilter) := by
  intro l1
  induction l1 with
  | nil =>
    intro l2 h
    cases l2 with
    | nil => rfl
    | cons b bs => simp at h
  | cons a as ih =>
    intro l2 h
    cases l2 with
    | nil => simp at h
    | cons b bs =>
      simp only [List.map_cons, List.cons.injEq] at h
      obtain ⟨hab, hrest⟩ := h
      simp only [List.any_cons]
      rw [ih bs hrest]
      unfold inputCandIsNull
      rw [inputCandType_congr prefixFilter a b
        (congrArg Prod.fst hab) (congrArg Prod.snd hab)]

theorem inputFieldToTS_eq (pf : Bool) (field : SchemaArg) (fit : InputTypeRef)
    (rest : List InputTypeRef) (h : field.inputType = fit :: rest) :
    inputFieldToTS pf field = some (
      (match field.comment with | some c => wrapComment c ++ "\n" | none => "") ++
      field.name ++ (if fit.isRequired then "" else "?") ++ ": " ++
      (if fit.isList then
        "Enumerable<" ++
          String.intercalate " | " (((fit :: rest).map (inputCandPieces pf)).flatten) ++ ">"
       else String.intercalate " | " (((fit :: rest).map (inputCandPieces pf)).flatten)) ++
      inputFieldNullableStr pf fit (fit :: rest)) := by
  unfold inputFieldToTS
  rw [h]

/-- C10 counterexample: two argument fields whose candidates carry
identical flag triples everywhere (in particular identical first-candidate
flags), differing only in a later candidate's *type* (`Int` versus the
literal `null`); the implicitly appended ` | null` is present for the
first and suppressed for the second, so the implicit null is not
determined solely by the first candidate's flags. -/
theorem c10_first_flags_counterexample :
    (SchemaArg.mk "x" [⟨"String", FieldKind.scalar, false, false, true⟩,
        ⟨"Int", FieldKind.scalar, false, false, true⟩] none).inputType.map
        (fun t => (t.isRequired, t.isList, t.isNullable)) =
      (SchemaArg.mk "x" [⟨"String", FieldKind.scalar, false, false, true⟩,
        ⟨"null", FieldKind.scalar, false, false, true⟩] none).inputType.map
        (fun t => (t.isRequired, t.isList, t.isNullable))
    ∧ inputFieldToTS false (SchemaArg.mk "x" [⟨"String", FieldKind.scalar, false, false, true⟩,
        ⟨"Int", FieldKind.scalar, false, false, true⟩] none) =
      some "x?: string | number | null"
    ∧ inputFieldToTS false (SchemaArg.mk "x" [⟨"String", FieldKind.scalar, false, false, true⟩,
        ⟨"null", FieldKind.scalar, false, false, true⟩] none) =
      some "x?: string | null"
    ∧ inputFieldNullableStr false ⟨"String", FieldKind.scalar, false, false, true⟩
        [⟨"String", FieldKind.scalar, false, false, true⟩,
         ⟨"Int", FieldKind.scalar, false, false, true⟩] = " | null"
    ∧ inputFieldNullableStr false ⟨"String", FieldKind.scalar, false, false, true⟩
        [⟨"String", FieldKind.scalar, false, false, true⟩,
         ⟨"null", FieldKind.scalar, false, false, true⟩] = "" := by
  refine ⟨rfl, rfl, rfl, rfl, rfl⟩

/-- C10 (amended): the rendered type of an argument field is the union of
the pieces of all candidates; the `?` marker is governed by the first
candidate's `isRequired`, the `Enumerable<...>` wrapping by the first
candidate's `isList`, and the implicit ` | null` by the first candidate's
`isRequired` and `isNullable` together with whether any candidate's
mapped type is the literal `null`; the flags of later candidates never
affect the rendering (two fields agreeing on name, comment, candidate
types/kinds and first-candidate flags render identically). -/
theorem c10_input_field_rendering (pf : Bool) (field : SchemaArg)
    (fit : InputTypeRef) (rest : List InputTypeRef)
    (h : field.inputType = fit :: rest) :
    (inputFieldToTS pf field = some (
      (match field.comment with | some c => wrapComment c ++ "\n" | none => "") ++
      field.name ++ (if fit.isRequired then "" else "?") ++ ": " ++
      (if fit.isList then
        "Enumerable<" ++
          String.intercalate " | " (((fit :: rest).map (inputCandPieces pf)).flatten) ++ ">"
       else String.intercalate " | " (((fit :: rest).map (inputCandPieces pf)).flatten)) ++
      inputFieldNullableStr pf fit (fit :: rest)))
    ∧ (inputFieldNullableStr pf fit field.inputType = " | null" ↔
        (fit.isRequired = false ∧ fit.isNullable = true ∧
          field.inputType.any (inputCandIsNull pf) = false))
    ∧ (∀ (g : SchemaArg) (git : InputTypeRef) (grest : List InputTypeRef),
        g.inputType = git :: grest →
        g.name = field.name → g.comment = field.comment →
        g.inputType.map (fun t => (t.typ, t.kind)) =
          field.inputType.map (fun t => (t.typ, t.kind)) →
        git.isRequired = fit.isRequired → git.isList = fit.isList →
        git.isNullable = fit.isNullable →
        inputFieldToTS pf g = inputFieldToTS pf field) := by
  refine ⟨inputFieldToTS_eq pf field fit rest h, ?_, ?_⟩
  · unfold inputFieldNullableStr
    cases hr : fit.isRequired with
    | true => simp [hr]
    | false =>
      cases hn : fit.isNullable with
      | false => simp [hr, hn]
      | true =>
        cases ha : field.inputType.any (inputCandIsNull pf) with
        | false => simp [hr, hn, ha]
        | true => simp [hr, hn, ha]
  · intro g git grest hg hname hcomment hshape hr hl hn
    rw [inputFieldToTS_eq pf g git grest hg, inputFieldToTS_eq pf field fit rest h]
    have hpieces : (git :: grest).map (inputCandPieces pf) =
        (fit :: rest).map (inputCandPieces pf) := by
      have := inputCandPieces_map_congr pf g.inputType field.inputType hshape
      rwa [hg, h] at this
    have hany : (git :: grest).any (inputCandIsNull pf) =
        (fit :: rest).any (inputCandIsNull pf) := by
      have := inputCandIsNull_any_congr pf g.inputType field.inputType hshape
      rwa [hg, h] at this
    have hnullable : inputFieldNullableStr pf git (git :: grest) =
        inputFieldNullableStr pf fit (fit :: rest) := by
      unfold inputFieldNullableStr
      rw [hr, hn, hany]
    rw [hname, hcomment, hr, hl, hpieces, hnullable]

/-- Witness for C10: a `where` argument with an object candidate and a
literal `null` candidate renders with the union and the suppressed
implicit null; flipping every flag on the later candidate leaves the
rendering unchanged. -/
theorem c10_input_field_rendering_witness :
    inputFieldToTS false (SchemaArg.mk "where"
        [⟨"PostWhereInput", FieldKind.object, false, false, true⟩,
         ⟨"null", FieldKind.scalar, false, false, true⟩] none) =
      some "where?: PostWhereInput | null"
    ∧ inputFieldToTS false (SchemaArg.mk "where"
        [⟨"PostWhereInput", FieldKind.object, false, false, true⟩,
         ⟨"null", FieldKind.scalar, true, true, false⟩] none) =
      inputFieldToTS false (SchemaArg.mk "where"
        [⟨"PostWhereInput", FieldKind.object, false, false, true⟩,
         ⟨"null", FieldKind.scalar, false, false, true⟩] none) := by
  have h := c10_input_field_rendering false (SchemaArg.mk "where"
    [⟨"PostWhereInput", FieldKind.object, false, false, true⟩,
     ⟨"null", FieldKind.scalar, false, false, true⟩] none)
    ⟨"PostWhereInput", FieldKind.object, false, false, true⟩
    [⟨"null", FieldKind.scalar, false, false, true⟩] rfl
  constructor
  · rw [h.1]
    rfl
  · exact h.2.2 (SchemaArg.mk "where"
      [⟨"PostWhereInput", FieldKind.object, false, false, true⟩,
       ⟨"null", FieldKind.scalar, true, true, false⟩] none)
      ⟨"PostWhereInput", FieldKind.object, false, false, true⟩
      [⟨"null", FieldKind.scalar, true, true, false⟩] rfl rfl rfl rfl rfl rfl rfl

/-! ## Named input types and the dedup policy -/

/-- Modelled from the spec: `uniqueBy` lives in
`runtime/utils/uniqueBy.ts`, which is absent from the sources; spec
section 3 defines its contract: when two elements share the same key,
only the first occurrence survives and later duplicates are discarded.
The accumulator mirrors the JS hash of already-seen keys. -/
def uniqueByAux {α : Type} (f : α → String) : List String → List α → List α
  | _, [] => []
  | seen, x :: xs =>
    if seen.contains (f x) then uniqueByAux f seen xs
    else x :: uniqueByAux f (f x :: seen) xs

/-- Modelled from the spec: entry point of the first-occurrence dedup. -/
def uniqueBy {α : Type} (arr : List α) (callee : α → String) : List α :=
  uniqueByAux callee [] arr

/-- A named DMMF input type (`DMMF.InputType`): name and argument fields. -/
structure DMMFInputType where
  name : String
  fields : List SchemaArg
  deriving DecidableEq, Repr

/-- The field list `InputType.toTS` renders:
`uniqueBy(type.fields, f => f.name)`. -/
def inputTypeFields (t : DMMFInputType) : List SchemaArg :=
  uniqueBy t.fields (fun f => f.name)

theorem uniqueByAux_subset {α : Type} (f : α → String) :
    ∀ (l : List α) (seen : List String) (x : α), x ∈ uniqueByAux f seen l → x ∈ l := by
  intro l
  induction l with
  | nil =>
    intro seen x hx
    cases hx
  | cons a as ih =>
    intro seen x hx
    unfold uniqueByAux at hx
    split at hx
    · exact List.mem_cons_of_mem a (ih seen x hx)
    · rcases List.mem_cons.1 hx with h | h
      · exact h ▸ List.mem_cons_self a as
      · exact List.mem_cons_of_mem a (ih _ x h)

theorem uniqueByAux_find? {α : Type} (f : α → String) (n : String) :
    ∀ (l : List α) (seen : List String), seen.contains n = false →
      (uniqueByAux f seen l).find? (fun x => f x == n) = l.find? (fun x => f x == n) := by
  intro l
  induction l with
  | nil => intro seen _; rfl
  | cons a as ih =>
    intro seen hseen
    unfold uniqueByAux
    split
    case isTrue hin =>
      cases hb : (f a == n) with
      | true =>
        have : f a = n := by simpa using hb
        rw [this] at hin
        rw [hin] at hseen
        cases hseen
      | false =>
        rw [List.find?_cons, hb]
        exact ih seen hseen
    case isFalse hin =>
      cases hb : (f a == n) with
      | true =>
        rw [List.find?_cons, hb, List.find?_cons, hb]
      | false =>
        rw [List.find?_cons, hb, List.find?_cons, hb]
        apply ih
        have hne : (n == f a) = false := by
          have h2 : ¬ f a = n := by simpa using hb
          exact beq_eq_false_iff_ne.2 (fun h => h2 h.symm)
        rw [List.contains_cons, Bool.or_eq_false_iff]
        exact ⟨hne, hseen⟩

theorem uniqueByAux_keys_distinct {α : Type} (f : α → String) :
    ∀ (l : List α) (seen : List String),
      ((uniqueByAux f seen l).map f).Nodup
      ∧ (∀ x ∈ uniqueByAux f seen l, seen.contains (f x) = false) := by
  intro l
  induction l with
  | nil =>
    intro seen
    exact ⟨List.nodup_nil, fun x hx => absurd hx (List.not_mem_nil x)⟩
  | cons a as ih =>
    intro seen
    unfold uniqueByAux
    split
    case isTrue hin => exact ih seen
    case isFalse hin =>
      obtain ⟨hnd, hall⟩ := ih (f a :: seen)
      constructor
      · rw [List.map_cons, List.nodup_cons]
        refine ⟨?_, hnd⟩
        intro hmem
        obtain ⟨y, hy, hfy⟩ := List.mem_map.1 hmem
        have := hall y hy
        rw [hfy] at this
        simp [List.contains_cons] at this
      · intro x hx
        rcases List.mem_cons.1 hx with h | h
        · subst h
          simpa using hin
        · have := hall x h
          simp [List.contains_cons] at this
          exact (Bool.eq_false_iff.2 (fun hc => this.2 (by simpa using hc)))

theorem uniqueByAux_covers {α : Type} (f : α → String) [DecidableEq String] :
    ∀ (l : List α) (seen : List String) (x : α), x ∈ l → seen.contains (f x) = false →
      ∃ y, y ∈ uniqueByAux f seen l ∧ f y = f x := by
  intro l
  induction l with
  | nil =>
    intro seen x hx
    cases hx
  | cons a as ih =>
    intro seen x hx hseen
    unfold uniqueByAux
    split
    case isTrue hin =>
      rcases List.mem_cons.1 hx with h | h
      · simp [h] at hseen
        simp at hin
        exact absurd hin hseen
      · exact ih seen x h hseen
    case isFalse hin =>
      rcases List.mem_cons.1 hx with h | h
      · exact ⟨a, List.mem_cons_self a _, by rw [h]⟩
      · by_cases heq : f x = f a
        · exact ⟨a, List.mem_cons_self a _, heq.symm⟩
        · obtain ⟨y, hy, hfy⟩ := ih (f a :: seen) x h (by
            rw [List.contains_cons, Bool.or_eq_false_iff]
            exact ⟨beq_eq_false_iff_ne.2 heq, hseen⟩)
          exact ⟨y, List.mem_cons_of_mem a hy, hfy⟩

/-- C6: the field list rendered for a named input type keeps, for every
field name, exactly the first-declared field of that name (lookup in the
deduped list equals lookup in the declared list), its names are pairwise
distinct (later duplicates are discarded), it invents no field, and every
declared field name is still represented — deduplication, not an error. -/
theorem c6_input_type_dedup (t : DMMFInputType) (n : String) :
    (inputTypeFields t).find? (fun f => f.name == n) =
      t.fields.find? (fun f => f.name == n)
    ∧ ((inputTypeFields t).map (fun f => f.name)).Nodup
    ∧ (∀ f, f ∈ inputTypeFields t → f ∈ t.fields)
    ∧ (∀ f, f ∈ t.fields → ∃ g, g ∈ inputTypeFields t ∧ g.name = f.name) := by
  unfold inputTypeFields uniqueBy
  refine ⟨?_, ?_, ?_, ?_⟩
  · exact uniqueByAux_find? (fun f => f.name) n t.fields [] rfl
  · exact (uniqueByAux_keys_distinct (fun f => f.name) t.fields []).1
  · intro f hf
    exact uniqueByAux_subset (fun g => g.name) t.fields [] f hf
  · intro f hf
    obtain ⟨g, hg, hgname⟩ := uniqueByAux_covers (fun g => g.name) t.fields [] f hf rfl
    exact ⟨g, hg, hgname⟩

/-- Witness for C6: an input type declaring two fields named `where`
keeps only the first-declared one. -/
theorem c6_input_type_dedup_witness :
    inputTypeFields ⟨"TestWhereInput",
      [⟨"where", [⟨"PostWhereInput", FieldKind.object, false, false, true⟩], none⟩,
       ⟨"where", [⟨"String", FieldKind.scalar, false, false, false⟩], none⟩,
       ⟨"orderBy", [⟨"String", FieldKind.scalar, false, false, false⟩], none⟩]⟩ =
      [⟨"where", [⟨"PostWhereInput", FieldKind.object, false, false, true⟩], none⟩,
       ⟨"orderBy", [⟨"String", FieldKind.scalar, false, false, false⟩], none⟩]
    ∧ (inputTypeFields ⟨"TestWhereInput",
      [⟨"where", [⟨"PostWhereInput", FieldKind.object, false, false, true⟩], none⟩,
       ⟨"where", [⟨"String", FieldKind.scalar, false, false, false⟩], none⟩,
       ⟨"orderBy", [⟨"String", FieldKind.scalar, false, false, false⟩], none⟩]⟩).find?
        (fun f => f.name == "where") =
      some ⟨"where", [⟨"PostWhereInput", FieldKind.object, false, false, true⟩], none⟩ := by
  constructor
  · rfl
  · exact (c6_input_type_dedup ⟨"TestWhereInput",
      [⟨"where", [⟨"PostWhereInput", FieldKind.object, false, false, true⟩], none⟩,
       ⟨"where", [⟨"String", FieldKind.scalar, false, false, false⟩], none⟩,
       ⟨"orderBy", [⟨"String", FieldKind.scalar, false, false, false⟩], none⟩]⟩ "where").1.trans rfl

/-! ## Per-action argument types -/

/-- Modelled from the spec: the closed enumeration `DMMF.ModelAction`
lives in `runtime/dmmf-types.ts`, absent from the sources; spec section 3
lists the action kinds of a Mapping (create, findOne, findMany, update,
updateMany, upsert, delete, deleteMany); the synthetic `aggregate`
bookkeeping key is not a `ModelAction` (the delegate emitter filters it
out alongside `model` and `plural`). -/
inductive ModelAction where
  | findOne
  | findMany
  | create
  | update
  | updateMany
  | upsert
  | delete
  | deleteMany
  deriving DecidableEq, Repr

/-- The string key of an action, as used in mapping objects. -/
def ModelAction.key : ModelAction → String
  | ModelAction.findOne => "findOne"
  | ModelAction.findMany => "findMany"
  | ModelAction.create => "create"
  | ModelAction.update => "update"
  | ModelAction.updateMany => "updateMany"
  | ModelAction.upsert => "upsert"
  | ModelAction.delete => "delete"
  | ModelAction.deleteMany => "deleteMany"

/-- The enumeration order `for (const action in DMMF.ModelAction)`
iterates. -/
def modelActionList : List ModelAction :=
  [ModelAction.findOne, ModelAction.findMany, ModelAction.create, ModelAction.update,
   ModelAction.updateMany, ModelAction.upsert, ModelAction.delete, ModelAction.deleteMany]

/-- A DMMF mapping as the JS object `Object.entries` iterates: an ordered
key/value list holding the `model` and `plural` bookkeeping entries, the
per-action server field names, and possibly `aggregate`; an absent action
is an absent key, and `none` models a key present with an undefined/null
value. -/
structure Mapping where
  entries : List (String × Option String)
  deriving DecidableEq, Repr

/-- JS property access `mapping[key]` (absent key reads as undefined). -/
def Mapping.lookup (m : Mapping) (k : String) : Option String :=
  match m.entries.find? (fun e => e.1 == k) with
  | some e => e.2
  | none => none

/-- JS truthiness of a mapping value (undefined, null and the empty
string are falsy). -/
def truthyVal : Option String → Bool
  | none => false
  | some s => !(s == "")

/-- Modelled from the spec: `getSelectName` from `generation/utils.ts`
(absent from the sources); section 4.1 derives identifiers by
concatenating the entity name with a fixed role suffix. -/
def getSelectName (name : String) : String := name ++ "Select"

/-- Modelled from the spec: `getIncludeName` from `generation/utils.ts`. -/
def getIncludeName (name : String) : String := name ++ "Include"

/-- Modelled from the spec: `getModelArgName` from `generation/utils.ts`:
entity name, capitalized action, fixed `Args` suffix; the action-less
form is the bare `<Entity>Args`. -/
def getModelArgName (name : String) : Option ModelAction → String
  | some a => name ++ (ModelAction.key a).capitalize ++ "Args"
  | none => name ++ "Args"

/-- Modelled from the spec: the external `pluralize` library is not part
of the repository; it only feeds generated comment text, so a naive
suffix suffices for the embedding. -/
def pluralize (s : String) : String := s ++ "s"

/-- Whether the model has at least one relation field:
`model.fields.some(f => f.kind === 'object')`. -/
def hasRelationField (m : Model) : Bool :=
  m.fields.any (fun f => f.kind == FieldKind.object)

/-- The synthetic `select` member `ArgsType.toTS` always prepends. -/
def selectArgField (name : String) : SchemaArg :=
  ⟨"select", [⟨getSelectName name, FieldKind.object, false, false, true⟩],
    some ("Select specific fields to fetch from the " ++ name)⟩

/-- The synthetic `include` member, offered only when the model has a
relation field. -/
def includeArgField (name : String) : SchemaArg :=
  ⟨"include", [⟨getIncludeName name, FieldKind.object, false, false, true⟩],
    some "Choose, which related nodes to fetch as well."⟩

/-- Embedding of the `topLevelArgsJsDocs` table: per-action, per-argument
comment templates; unrecognized pairs yield no comment. -/
def topLevelArgsJsDocs (action : ModelAction) (argName singular plural : String) :
    Option String :=
  match action, argName with
  | ModelAction.findOne, "where" => some ("Filter, which " ++ singular ++ " to fetch.")
  | ModelAction.findMany, "where" => some ("Filter, which " ++ plural ++ " to fetch.")
  | ModelAction.findMany, "orderBy" =>
    some ("Determine the order of the " ++ plural ++ " to fetch.")
  | ModelAction.findMany, "skip" => some ("Skip the first `n` " ++ plural ++ ".")
  | ModelAction.findMany, "cursor" => some ("Sets the position for listing " ++ plural ++ ".")
  | ModelAction.findMany, "take" =>
    some ("Get all " ++ plural ++ " that come after or before the " ++ singular ++
      " you provide with the current order.")
  | ModelAction.create, "data" => some ("The data needed to create a " ++ singular ++ ".")
  | ModelAction.update, "data" => some ("The data needed to update a " ++ singular ++ ".")
  | ModelAction.update, "where" => some ("Choose, which " ++ singular ++ " to update.")
  | ModelAction.upsert, "where" =>
    some ("The filter to search for the " ++ singular ++ " to update in case it exists.")
  | ModelAction.upsert, "create" =>
    some ("In case the " ++ singular ++ " found by the `where` argument doesn't exist, create a new " ++ singular ++ " with this data.")
  | ModelAction.upsert, "update" =>
    some ("In case the " ++ singular ++ " was found with the provided `where` argument, update it with this data.")
  | ModelAction.delete, "where" => some ("Filter which " ++ singular ++ " to delete.")
  | _, _ => none

/-- The comment mutation `ArgsType.toTS` performs on each declared arg
(`arg.comment = comment` when the table has an entry; only with an
action). -/
def applyArgComment (action : Option ModelAction) (singular plural : String)
    (arg : SchemaArg) : SchemaArg :=
  match action with
  | none => arg
  | some a =>
    match topLevelArgsJsDocs a arg.name singular plural with
    | some c => { arg with comment := some c }
    | none => arg

/-- The field list `ArgsType.toTS` renders (`bothArgsOptional`): the
`select` member first, the `include` member when the model has a relation
field, then the declared args in their upstream order (with the JSDoc
comments applied). -/
def argsTypeFields (model : Model) (action : Option ModelAction)
    (args : List SchemaArg) : List SchemaArg :=
  let singular := model.name
  let plural := pluralize model.name
  (selectArgField model.name ::
    (if hasRelationField model then [includeArgField model.name] else [])) ++
    args.map (applyArgComment action singular plural)

/-- Which of the two arg-type emitters a mapping entry goes to. -/
inductive ArgsTypeKind where
  | full
  | minimal
  deriving DecidableEq, Repr

/-- One generatable produced by `Model.argsTypes`: the action (none for
the bare arg type), the emitter kind, and the declared args passed to the
constructor. -/
structure ArgsTypeSpec where
  action : Option ModelAction
  kind : ArgsTypeKind
  args : List SchemaArg
  deriving DecidableEq, Repr

/-- The field list a spec renders: `ArgsType.toTS` for the full kind,
`MinimalArgsType.toTS` (the declared args only, no `select`/`include`,
no comment mutation) for the minimal kind. -/
def argsTypeSpecFields (model : Model) (spec : ArgsTypeSpec) : List SchemaArg :=
  match spec.kind with
  | ArgsTypeKind.full => argsTypeFields model spec.action spec.args
  | ArgsTypeKind.minimal => spec.args

/-- Lookup of `DMMFClass.getField`: resolves a mapped server field name
to its declared argument list on Query/Mutation. -/
def getField (env : List (String × List SchemaArg)) (fieldName : String) :
    Option (List SchemaArg) :=
  (env.find? (fun e => e.1 == fieldName)).map (·.2)

/-- The loop body of `Model.argsTypes` over the action enumeration:
falsy mapping values are skipped, an unresolvable field name throws, bulk
update/delete go to `MinimalArgsType`, the rest to `ArgsType`. -/
def argsTypesGo (env : List (String × List SchemaArg)) (mapping : Mapping) :
    List ModelAction → Except String (List ArgsTypeSpec)
  | [] => Except.ok []
  | action :: rest =>
    match mapping.lookup (ModelAction.key action) with
    | none => argsTypesGo env mapping rest
    | some fieldName =>
      if fieldName == "" then argsTypesGo env mapping rest
      else
        match getField env fieldName with
        | none =>
          Except.error ("Oops this must not happen. Could not find field " ++ fieldName ++
            " on either Query or Mutation")
        | some args =>
          (argsTypesGo env mapping rest).map (fun specs =>
            (if action == ModelAction.updateMany || action == ModelAction.deleteMany then
              ArgsTypeSpec.mk (some action) ArgsTypeKind.minimal args
             else ArgsTypeSpec.mk (some action) ArgsTypeKind.full args) :: specs)

/-- Embedding of `Model.argsTypes`: no mapping yields no arg types at
all; otherwise the per-action specs in enumeration order followed by the
always-appended bare arg type (`new ArgsType([], model)`). -/
def argsTypes (env : List (String × List SchemaArg)) (mappingOpt : Option Mapping)
    (_model : Model) : Except String (List ArgsTypeSpec) :=
  match mappingOpt with
  | none => Except.ok []
  | some mapping =>
    (argsTypesGo env mapping modelActionList).map
      (fun specs => specs ++ [ArgsTypeSpec.mk none ArgsTypeKind.full []])

theorem modelAction_mem_list (a : ModelAction) : a ∈ modelActionList := by
  cases a <;> simp [modelActionList]

theorem argsTypesGo_mem (env : List (String × List SchemaArg)) (mapping : Mapping) :
    ∀ (acts : List ModelAction) (out : List ArgsTypeSpec),
      argsTypesGo env mapping acts = Except.ok out →
      ∀ action ∈ acts, ∀ (fieldName : String) (args : List SchemaArg),
        mapping.lookup (ModelAction.key action) = some fieldName →
        (fieldName == "") = false →
        getField env fieldName = some args →
        (if action == ModelAction.updateMany || action == ModelAction.deleteMany then
          ArgsTypeSpec.mk (some action) ArgsTypeKind.minimal args
         else ArgsTypeSpec.mk (some action) ArgsTypeKind.full args) ∈ out := by
  intro acts
  induction acts with
  | nil =>
    intro out _ action ha
    cases ha
  | cons a rest ih =>
    intro out h action ha fieldName args hmap hne hfield
    unfold argsTypesGo at h
    split at h
    next hl =>
      rcases List.mem_cons.1 ha with heq | hmem
      · subst heq
        rw [hmap] at hl
        simp at hl
      · exact ih out h action hmem fieldName args hmap hne hfield
    next fn hl =>
      split at h
      next hfn =>
        rcases List.mem_cons.1 ha with heq | hmem
        · subst heq
          rw [hmap] at hl
          have hfe : fieldName = fn := Option.some.inj hl
          rw [hfe] at hne
          rw [hfn] at hne
          cases hne
        · exact ih out h action hmem fieldName args hmap hne hfield
      next hfn =>
        split at h
        next hgf =>
          cases h
        next args2 hgf =>
          cases hrest : argsTypesGo env mapping rest with
          | error e =>
            rw [hrest] at h
            simp [Except.map] at h
          | ok specs2 =>
            rw [hrest] at h
            simp only [Except.map] at h
            have hout : _ :: specs2 = out := Except.ok.inj h
            rcases List.mem_cons.1 ha with heq | hmem
            · subst heq
              rw [hmap] at hl
              have hfe : fieldName = fn := Option.some.inj hl
              rw [hfe] at hfield
              rw [hgf] at hfield
              have hae : args2 = args := Option.some.inj hfield
              rw [← hout, hae]
              exact List.mem_cons_self _ _
            · rw [← hout]
              exact List.mem_cons_of_mem _
                (ih specs2 hrest action hmem fieldName args hmap hne hfield)

/-- C4: for every action present (with a truthy value) in the mapping
whose server field resolves, the emitted argument type starts with the
`select` member, then the `include` member exactly when the entity has a
relation field, then the action's declared argument descriptors in their
upstream order; bulk update and bulk delete instead go through the
reduced emitter whose field list is exactly the declared args (no
`select`, no `include`); and the emitted list always ends with the bare
action-less argument type. -/
theorem c4_args_type_assembly (env : List (String × List SchemaArg)) (mapping : Mapping)
    (model : Model) (specs : List ArgsTypeSpec)
    (hok : argsTypes env (some mapping) model = Except.ok specs)
    (action : ModelAction) (fieldName : String) (args : List SchemaArg)
    (hmap : mapping.lookup (ModelAction.key action) = some fieldName)
    (hne : (fieldName == "") = false)
    (hfield : getField env fieldName = some args) :
    ((action == ModelAction.updateMany || action == ModelAction.deleteMany) = false →
      ArgsTypeSpec.mk (some action) ArgsTypeKind.full args ∈ specs
      ∧ argsTypeSpecFields model (ArgsTypeSpec.mk (some action) ArgsTypeKind.full args) =
        selectArgField model.name ::
          ((if hasRelationField model then [includeArgField model.name] else []) ++
            args.map (applyArgComment (some action) model.name (pluralize model.name))))
    ∧ ((action == ModelAction.updateMany || action == ModelAction.deleteMany) = true →
      ArgsTypeSpec.mk (some action) ArgsTypeKind.minimal args ∈ specs
      ∧ argsTypeSpecFields model (ArgsTypeSpec.mk (some action) ArgsTypeKind.minimal args) =
        args)
    ∧ specs.getLast? = some (ArgsTypeSpec.mk none ArgsTypeKind.full [])
    ∧ argsTypeSpecFields model (ArgsTypeSpec.mk none ArgsTypeKind.full []) =
        selectArgField model.name ::
          (if hasRelationField model then [includeArgField model.name] else []) := by
  obtain ⟨specs2, hgo, hspecs⟩ :
      ∃ specs2, argsTypesGo env mapping modelActionList = Except.ok specs2 ∧
        specs = specs2 ++ [ArgsTypeSpec.mk none ArgsTypeKind.full []] := by
    have hok2 : Except.map
        (fun specs => specs ++ [ArgsTypeSpec.mk none ArgsTypeKind.full []])
        (argsTypesGo env mapping modelActionList) = Except.ok specs := hok
    cases hgo : argsTypesGo env mapping modelActionList with
    | error e =>
      rw [hgo] at hok2
      simp [Except.map] at hok2
    | ok specs2 =>
      rw [hgo] at hok2
      simp only [Except.map] at hok2
      exact ⟨specs2, rfl, (Except.ok.inj hok2).symm⟩
  have hmem := argsTypesGo_mem env mapping modelActionList specs2 hgo action
    (modelAction_mem_list action) fieldName args hmap hne hfield
  refine ⟨?_, ?_, ?_, ?_⟩
  · intro hbulk
    rw [hbulk] at hmem
    simp only [if_neg Bool.false_ne_true] at hmem
    refine ⟨hspecs ▸ List.mem_append_left _ hmem, ?_⟩
    simp [argsTypeSpecFields, argsTypeFields]
  · intro hbulk
    rw [hbulk] at hmem
    simp only [if_pos rfl] at hmem
    exact ⟨hspecs ▸ List.mem_append_left _ hmem, rfl⟩
  · rw [hspecs]
    exact List.getLast?_concat _
  · simp [argsTypeSpecFields, argsTypeFields]

def demoWhereArg : SchemaArg :=
  ⟨"where", [⟨"PostWhereInput", FieldKind.object, false, false, true⟩], none⟩

def demoOrderByArg : SchemaArg :=
  ⟨"orderBy", [⟨"PostOrderByInput", FieldKind.object, false, false, true⟩], none⟩

def demoDataArg : SchemaArg :=
  ⟨"data", [⟨"PostUpdateManyMutationInput", FieldKind.object, false, true, false⟩], none⟩

def demoPostMapping : Mapping :=
  ⟨[("model", some "Post"), ("plural", some "posts"),
    ("findOne", some "findOnePost"), ("findMany", some "findManyPost"),
    ("updateMany", some "updateManyPost"), ("aggregate", some "aggregatePost")]⟩

def demoFieldEnv : List (String × List SchemaArg) :=
  [("findOnePost", [demoWhereArg]),
   ("findManyPost", [demoWhereArg, demoOrderByArg]),
   ("updateManyPost", [demoDataArg, demoWhereArg])]

def demoArgsSpecs : List ArgsTypeSpec :=
  [ArgsTypeSpec.mk (some ModelAction.findOne) ArgsTypeKind.full [demoWhereArg],
   ArgsTypeSpec.mk (some ModelAction.findMany) ArgsTypeKind.full [demoWhereArg, demoOrderByArg],
   ArgsTypeSpec.mk (some ModelAction.updateMany) ArgsTypeKind.minimal [demoDataArg, demoWhereArg],
   ArgsTypeSpec.mk none ArgsTypeKind.full []]

/-- Witness for C4 at a concrete mapping: `findMany` gets the full
argument type (select, include since `Post` has a relation, then the
declared args with their generated comments); `updateMany` gets the
reduced type with exactly the declared args; the bare action-less type is
emitted last. -/
theorem c4_args_type_assembly_witness :
    argsTypes demoFieldEnv (some demoPostMapping) postModel = Except.ok demoArgsSpecs
    ∧ ArgsTypeSpec.mk (some ModelAction.findMany) ArgsTypeKind.full
        [demoWhereArg, demoOrderByArg] ∈ demoArgsSpecs
    ∧ argsTypeSpecFields postModel (ArgsTypeSpec.mk (some ModelAction.findMany)
        ArgsTypeKind.full [demoWhereArg, demoOrderByArg]) =
      [selectArgField "Post", includeArgField "Post",
       ⟨"where", [⟨"PostWhereInput", FieldKind.object, false, false, true⟩],
         some "Filter, which Posts to fetch."⟩,
       ⟨"orderBy", [⟨"PostOrderByInput", FieldKind.object, false, false, true⟩],
         some "Determine the order of the Posts to fetch."⟩]
    ∧ ArgsTypeSpec.mk (some ModelAction.updateMany) ArgsTypeKind.minimal
        [demoDataArg, demoWhereArg] ∈ demoArgsSpecs
    ∧ argsTypeSpecFields postModel (ArgsTypeSpec.mk (some ModelAction.updateMany)
        ArgsTypeKind.minimal [demoDataArg, demoWhereArg]) = [demoDataArg, demoWhereArg]
    ∧ demoArgsSpecs.getLast? = some (ArgsTypeSpec.mk none ArgsTypeKind.full []) := by
  obtain ⟨hfull, _, hlast, _⟩ :=
    c4_args_type_assembly demoFieldEnv demoPostMapping postModel demoArgsSpecs rfl
      ModelAction.findMany "findManyPost" [demoWhereArg, demoOrderByArg] rfl rfl rfl
  obtain ⟨_, hmin, _, _⟩ :=
    c4_args_type_assembly demoFieldEnv demoPostMapping postModel demoArgsSpecs rfl
      ModelAction.updateMany "updateManyPost" [demoDataArg, demoWhereArg] rfl rfl rfl
  obtain ⟨hfmem, hffields⟩ := hfull rfl
  obtain ⟨hmmem, hmfields⟩ := hmin rfl
  exact ⟨rfl, hfmem, hffields.trans rfl, hmmem, hmfields, hlast⟩

/-! ## The delegate interface -/

/-- Modelled from the spec: the string-keyed form of `getModelArgName`
used by the delegate emitter (entity name, capitalized action key, fixed
`Args` suffix). -/
def getModelArgNameStr (name actionName : String) : String :=
  name ++ actionName.capitalize ++ "Args"

/-- The mapping entries a delegate emits operations for:
`Object.entries(mapping).filter(([key, value]) => key !== 'model' && key
!== 'plural' && key !== 'aggregate' && value)`. -/
def delegateActions (m : Mapping) : List (String × Option String) :=
  m.entries.filter (fun e =>
    e.1 != "model" && e.1 != "plural" && e.1 != "aggregate" && truthyVal e.2)

/-- One emitted operation signature of the delegate interface: the action
key and the argument type name it accepts. -/
structure DelegateOp where
  action : String
  argTypeName : String
  deriving DecidableEq, Repr

/-- The operations `ModelDelegate.toTS` emits: one per filtered mapping
entry, accepting `Subset<T, getModelArgName(name, actionName)>`. -/
def delegateOps (name : String) (m : Mapping) : List DelegateOp :=
  (delegateActions m).map (fun e => ⟨e.1, getModelArgNameStr name e.1⟩)

/-- The argument type of the unconditionally emitted `count` operation:
`Omit<getModelArgName(name, findMany), 'select' | 'include'>`. -/
def delegateCountArgType (name : String) : String :=
  "Omit<" ++ getModelArgNameStr name "findMany" ++ ", 'select' | 'include'>"

/-- Semantics of the `Omit<..., 'select' | 'include'>` applied to an
object type's field list. -/
def omitKeys (fields : List SchemaArg) (keys : List String) : List SchemaArg :=
  fields.filter (fun f => !(keys.contains f.name))

theorem applyArgComment_name (action : Option ModelAction) (s p : String) (arg : SchemaArg) :
    (applyArgComment action s p arg).name = arg.name := by
  unfold applyArgComment
  split
  · rfl
  · split
    · rfl
    · rfl

theorem mapping_lookup_of_mem_nodup (m : Mapping) (k : String) (v : Option String)
    (hnd : (m.entries.map Prod.fst).Nodup) (hmem : (k, v) ∈ m.entries) :
    m.lookup k = v := by
  unfold Mapping.lookup
  obtain ⟨l1, l2, hsplit⟩ := List.append_of_mem hmem
  rw [hsplit]
  rw [hsplit, List.map_append, List.nodup_append] at hnd
  have hnotin : ∀ x ∈ l1, ¬ (x.1 == k) = true := by
    intro x hx hbeq
    have hk : x.1 = k := by simpa using hbeq
    exact hnd.2.2 (List.mem_map_of_mem Prod.fst hx)
      (by rw [hk]; simp)
  rw [List.find?_append]
  have h1 : l1.find? (fun e => e.1 == k) = none := List.find?_eq_none.2 hnotin
  rw [h1]
  simp [List.find?_cons]

/-- C5: the delegate emits no operation for any action key whose mapping
value is absent or falsy (and no stub in its place), the synthetic
`model`/`plural`/`aggregate` keys never produce operations, each present
truthy non-synthetic mapping entry produces exactly its operation, and
the always-emitted `count` operation accepts the find-many argument shape
with `select` and `include` removed — which, on the assembled find-many
argument type, leaves exactly the action's declared argument
descriptors. -/
theorem c5_delegate_operations (name : String) (m : Mapping) (model : Model)
    (args : List SchemaArg) (hnd : (m.entries.map Prod.fst).Nodup) :
    (∀ key, truthyVal (m.lookup key) = false →
      ∀ op ∈ delegateOps name m, op.action ≠ key)
    ∧ (∀ op ∈ delegateOps name m,
        op.action ≠ "model" ∧ op.action ≠ "plural" ∧ op.action ≠ "aggregate")
    ∧ (∀ e ∈ m.entries, e.1 ≠ "model" → e.1 ≠ "plural" → e.1 ≠ "aggregate" →
        truthyVal e.2 = true →
        DelegateOp.mk e.1 (getModelArgNameStr name e.1) ∈ delegateOps name m)
    ∧ delegateCountArgType name =
        "Omit<" ++ name ++ "FindManyArgs" ++ ", 'select' | 'include'>"
    ∧ ((∀ f ∈ args, f.name ≠ "select" ∧ f.name ≠ "include") →
        omitKeys (argsTypeFields model (some ModelAction.findMany) args)
            ["select", "include"] =
          args.map (applyArgComment (some ModelAction.findMany) model.name
            (pluralize model.name))) := by
  refine ⟨?_, ?_, ?_, ?_, ?_⟩
  case refine_4 =>
    have h1 : getModelArgNameStr name "findMany" = name ++ "FindManyArgs" := by
      unfold getModelArgNameStr
      rw [String.append_assoc]
      congr 1
    unfold delegateCountArgType
    rw [h1, ← String.append_assoc]
  · intro key hfalsy op hop hkey
    obtain ⟨e, he, hope⟩ := List.mem_map.1 hop
    have hfil := List.mem_filter.1 he
    have htr : truthyVal e.2 = true := by
      have h2 := hfil.2
      simp only [Bool.and_eq_true] at h2
      exact h2.2
    have hact : op.action = e.1 := by rw [← hope]
    have hke : e.1 = key := hact ▸ hkey
    have hlk : m.lookup e.1 = e.2 := mapping_lookup_of_mem_nodup m e.1 e.2 hnd hfil.1
    rw [hke] at hlk
    rw [hlk, htr] at hfalsy
    cases hfalsy
  · intro op hop
    obtain ⟨e, he, hope⟩ := List.mem_map.1 hop
    have hpred := (List.mem_filter.1 he).2
    simp only [Bool.and_eq_true, bne_iff_ne, ne_eq] at hpred
    obtain ⟨⟨⟨hm2, hp2⟩, hag⟩, _⟩ := hpred
    rw [← hope]
    exact ⟨hm2, hp2, hag⟩
  · intro e he hm2 hp2 hag htr
    apply List.mem_map.2
    refine ⟨e, List.mem_filter.2 ⟨he, ?_⟩, rfl⟩
    simp [bne_iff_ne, hm2, hp2, hag, htr]
  · intro hargs
    have hkeep : List.filter (fun f => !(["select", "include"].contains f.name))
        (args.map (applyArgComment (some ModelAction.findMany) model.name
          (pluralize model.name))) =
        args.map (applyArgComment (some ModelAction.findMany) model.name
          (pluralize model.name)) := by
      apply List.filter_eq_self.2
      intro f hf
      obtain ⟨g, hg, hfg⟩ := List.mem_map.1 hf
      subst hfg
      rw [applyArgComment_name]
      obtain ⟨h1, h2⟩ := hargs g hg
      simp [h1, h2]
    unfold omitKeys argsTypeFields
    cases hrel : hasRelationField model with
    | true =>
      simp only [hrel, if_true]
      rw [List.filter_append]
      rw [hkeep]
      simp [selectArgField, includeArgField, List.filter_cons]
    | false =>
      simp only [hrel]
      rw [List.filter_append]
      rw [hkeep]
      simp [selectArgField, List.filter_cons]

/-- Witness for C5 at the concrete `Post` mapping: the delegate exposes
exactly the mapped `findOne`/`findMany`/`updateMany` operations, nothing
for the unmapped `delete`, nothing for the synthetic `aggregate` key, and
the count argument shape on the assembled find-many type is exactly the
declared descriptors. -/
theorem c5_delegate_operations_witness :
    delegateOps "Post" demoPostMapping =
      [⟨"findOne", "PostFindOneArgs"⟩, ⟨"findMany", "PostFindManyArgs"⟩,
       ⟨"updateMany", "PostUpdateManyArgs"⟩]
    ∧ (∀ op ∈ delegateOps "Post" demoPostMapping, op.action ≠ "delete")
    ∧ (∀ op ∈ delegateOps "Post" demoPostMapping, op.action ≠ "aggregate")
    ∧ DelegateOp.mk "findMany" "PostFindManyArgs" ∈ delegateOps "Post" demoPostMapping
    ∧ omitKeys (argsTypeFields postModel (some ModelAction.findMany)
        [demoWhereArg, demoOrderByArg]) ["select", "include"] =
      [demoWhereArg, demoOrderByArg].map
        (applyArgComment (some ModelAction.findMany) "Post" (pluralize "Post")) := by
  obtain ⟨h1, h2, h3, _, h5⟩ :=
    c5_delegate_operations "Post" demoPostMapping postModel [demoWhereArg, demoOrderByArg]
      (by simp [demoPostMapping])
  refine ⟨rfl, h1 "delete" rfl, fun op hop => (h2 op hop).2.2, ?_, ?_⟩
  · exact h3 ("findMany", some "findManyPost") (by simp [demoPostMapping])
      (by decide) (by decide) (by decide) rfl
  · apply h5
    intro f hf
    rcases List.mem_cons.1 hf with h | h
    · rw [h]
      exact ⟨by decide, by decide⟩
    · rcases List.mem_cons.1 h with h2 | h2
      · rw [h2]
        exact ⟨by decide, by decide⟩
      · cases h2

/-! ## Construction-time deep copy (frame property) -/

/-- A DMMF enumeration: name and ordered values. -/
structure DMMFEnum where
  name : String
  values : List String
  deriving DecidableEq, Repr

/-- The DMMF document a caller hands to the `TSClient` constructor: the
slice the generator reads — and, through the internal copy, mutates (the
`SchemaArg.comment` fields inside `schemaFields` are assigned by
`ArgsType.toTS`). -/
structure Document where
  enums : List DMMFEnum
  models : List Model
  outputTypes : List OutputType
  mappings : List Mapping
  schemaFields : List (String × List SchemaArg)
  inputTypes : List DMMFInputType

/-- In-place update of one resolved field's argument list. -/
def updateFieldArgs (env : List (String × List SchemaArg)) (fieldName : String)
    (g : List SchemaArg → List SchemaArg) : List (String × List SchemaArg) :=
  env.map (fun e => if e.1 == fieldName then (e.1, g e.2) else e)

/-- The mapping a model resolves to: `dmmf.mappings.find(m => m.model ===
name)`. -/
def findMapping (mappings : List Mapping) (name : String) : Option Mapping :=
  mappings.find? (fun mp => mp.lookup "model" == some name)

/-- The comment mutation one full `toTS` pass performs on the internal
document: for every model, every non-bulk action present in its mapping
runs `ArgsType.toTS`, which assigns the generated JSDoc comments onto the
resolved field's args (`arg.comment = comment`); bulk update/delete go
through `MinimalArgsType.toTS`, which does not mutate, and the bare arg
type carries no action. -/
def setCommentsStep (mappings : List Mapping) (env : List (String × List SchemaArg))
    (model : Model) : List (String × List SchemaArg) :=
  match findMapping mappings model.name with
  | none => env
  | some mapping =>
    modelActionList.foldl
      (fun env2 action =>
        if action == ModelAction.updateMany || action == ModelAction.deleteMany then
          env2
        else
          match mapping.lookup (ModelAction.key action) with
          | none => env2
          | some fieldName =>
            if fieldName == "" then env2
            else
              updateFieldArgs env2 fieldName (fun args =>
                args.map (applyArgComment (some action) model.name
                  (pluralize model.name))))
      env

def setComments (d : Document) : Document :=
  { d with schemaFields := d.models.foldl (setCommentsStep d.mappings) d.schemaFields }

/-- A two-address heap making the aliasing explicit: address 0 holds the
caller's document object, and the `TSClient` constructor's
`klona(options.document)` allocates an independent deep copy at address
1, which `this.dmmf` wraps. -/
structure GenState where
  store : List Document
  internalAddr : Nat

/-- The `TSClient` constructor: reads the caller's document (for the
stringified DMMF) and deep-copies it to a fresh address. -/
def tsClientConstruct (d : Document) : GenState :=
  { store := [d, d], internalAddr := 1 }

/-- One emission call on the client. -/
inductive EmitOp where
  | ts
  | js

/-- `toTS` mutates the internal document's arg comments in place; `toJS`
only reads (it renders the enums and the stringified document). -/
def emitStep (st : GenState) : EmitOp → GenState
  | EmitOp.ts =>
    match st.store[st.internalAddr]? with
    | some d => { st with store := st.store.set st.internalAddr (setComments d) }
    | none => st
  | EmitOp.js => st

/-- Any sequence of emissions. -/
def emitRun (st : GenState) : List EmitOp → GenState
  | [] => st
  | op :: ops => emitRun (emitStep st op) ops

theorem emitStep_frame (st : GenState) (op : EmitOp) (h : st.internalAddr ≠ 0) :
    (emitStep st op).store[0]? = st.store[0]?
    ∧ (emitStep st op).internalAddr = st.internalAddr := by
  cases op with
  | js => exact ⟨rfl, rfl⟩
  | ts =>
    unfold emitStep
    cases hd : st.store[st.internalAddr]? with
    | none => exact ⟨rfl, rfl⟩
    | some d =>
      refine ⟨?_, rfl⟩
      exact List.getElem?_set_ne h

/-- C8: after construction and any sequence of `toTS`/`toJS` emissions,
the caller's document object (address 0) still holds exactly the document
passed in — every field of it, argument descriptors and comments
included; the constructor's deep copy confines all comment mutation to
the internal address. -/
theorem c8_caller_document_unchanged (d : Document) (ops : List EmitOp) :
    (emitRun (tsClientConstruct d) ops).store[0]? = some d := by
  suffices h : ∀ (ops : List EmitOp) (st : GenState), st.internalAddr ≠ 0 →
      (emitRun st ops).store[0]? = st.store[0]? by
    rw [h ops (tsClientConstruct d) (by intro hc; cases hc)]
    rfl
  intro ops
  induction ops with
  | nil =>
    intro st _
    rfl
  | cons op rest ih =>
    intro st hst
    unfold emitRun
    obtain ⟨h0, hia⟩ := emitStep_frame st op hst
    rw [ih (emitStep st op) (by rw [hia]; exact hst), h0]

/-- Non-vacuity check for C8: on a concrete document, one `toTS` pass
does change the internal copy (a comment is assigned) while the caller's
object is untouched. -/
theorem c8_internal_copy_mutated :
    (emitRun (tsClientConstruct
        ⟨[], [postModel], [postOutputType], [demoPostMapping], demoFieldEnv, []⟩)
      [EmitOp.ts]).store[0]? =
      some ⟨[], [postModel], [postOutputType], [demoPostMapping], demoFieldEnv, []⟩
    ∧ ((emitRun (tsClientConstruct
        ⟨[], [postModel], [postOutputType], [demoPostMapping], demoFieldEnv, []⟩)
      [EmitOp.ts]).store[1]?).map (fun d2 => d2.schemaFields ==
        demoFieldEnv) = some false := by
  constructor
  · exact c8_caller_document_unchanged
      ⟨[], [postModel], [postOutputType], [demoPostMapping], demoFieldEnv, []⟩ [EmitOp.ts]
  · rfl

/-! ## Document assembly and section ordering -/

/-- Modelled from the spec: `getPayloadName` from `generation/utils.ts`
(entity name plus the fixed payload-role suffix). -/
def getPayloadName (name : String) : String := name ++ "GetPayload"

/-- Modelled from the spec: `getArgName` from `generation/utils.ts` (the
argument-type identifier for a field target, with the find-many form for
list relations). -/
def getArgName (name : String) (isList : Bool) : String :=
  if isList then "FindMany" ++ name ++ "Args" else name ++ "Args"

/-- Modelled from the spec: `getFieldArgName`, the argument-type name a
relation field's selector member accepts. -/
def getFieldArgName (f : SchemaField) : String :=
  getArgName f.outputType.typeName f.outputType.isList

/-- The sections of the assembled document, in emission order. -/
inductive DocSection where
  | header
  | enums
  | models
  | inputs
  | batch
  deriving DecidableEq, Repr

def DocSection.rank : DocSection → Nat
  | DocSection.header => 0
  | DocSection.enums => 1
  | DocSection.models => 2
  | DocSection.inputs => 3
  | DocSection.batch => 4

/-- One emitted declaration: its name, the generated identifiers its body
references, and the section it is emitted in. -/
structure Decl where
  name : String
  refs : List String
  sec : DocSection
  deriving DecidableEq, Repr

/-- The (name, references) pairs of the declarations one `Model.toTS`
emission produces, in order: the plain value type, the select shape, the
include shape (when the model has relations), the payload type, the
delegate (when the model has a mapping), and the per-action argument
types. -/
def modelDeclPairs (d : Document) (m : Model) (specs : List ArgsTypeSpec) :
    List (String × List String) :=
  let rels := relationFields ⟨d.models, d.outputTypes⟩ m.name
  [(m.name, (modelScalarFields m).map (fun f => scalarOutputTSName f.type)),
   (getSelectName m.name, rels.map getFieldArgName)] ++
  (if hasRelationField m then [(getIncludeName m.name, rels.map getFieldArgName)] else []) ++
  [(getPayloadName m.name,
    [getArgName m.name false, getModelArgName m.name (some ModelAction.findMany), m.name] ++
      rels.map (fun f => getPayloadName f.outputType.typeName))] ++
  (match findMapping d.mappings m.name with
   | some mp =>
     [(m.name ++ "Delegate",
       (delegateOps m.name mp).map (fun op => op.argTypeName) ++
         [getModelArgName m.name (some ModelAction.findMany), getPayloadName m.name])]
   | none => []) ++
  specs.map (fun spec =>
    (getModelArgName m.name spec.action,
     (argsTypeSpecFields m spec).flatMap
       (fun f => f.inputType.flatMap (inputCandPieces false))))

/-- The declarations of one model section entry. -/
def modelDecls (d : Document) (m : Model) : Except String (List Decl) :=
  (argsTypes d.schemaFields (findMapping d.mappings m.name) m).map
    (fun specs => (modelDeclPairs d m specs).map
      (fun p => ⟨p.1, p.2, DocSection.models⟩))

/-- All model sections, in document order. -/
def modelsDecls (d : Document) : List Model → Except String (List Decl)
  | [] => Except.ok []
  | m :: ms =>
    match modelDecls d m, modelsDecls d ms with
    | Except.ok ds, Except.ok rest => Except.ok (ds ++ rest)
    | Except.error e, _ => Except.error e
    | _, Except.error e => Except.error e

/-- The assembled generated document, as the ordered declaration list
`TSClient.toTS` concatenates: the header boilerplate and `PrismaClient`
class (which references the per-model delegates), the enum declarations,
the per-entity sections, the deep input types, and the trailing
`BatchPayload` shape. -/
def assembled (d : Document) : Except String (List Decl) :=
  (modelsDecls d d.models).map (fun ms =>
    ⟨"PrismaClient",
      (d.mappings.filter (fun mp => truthyVal (mp.lookup "findMany"))).map
        (fun mp => (mp.lookup "model").getD "" ++ "Delegate"),
      DocSection.header⟩ ::
    (d.enums.map (fun e => ⟨e.name, [], DocSection.enums⟩) ++
      (ms ++
        (d.inputTypes.map (fun t =>
          ⟨t.name,
           (inputTypeFields t).flatMap (fun f => f.inputType.flatMap (inputCandPieces false)),
           DocSection.inputs⟩) ++
          [⟨"BatchPayload", [], DocSection.batch⟩]))))

/-- The reference discipline the claim asserts over the enum, entity,
input-type and batch sections: every reference to a generated
declaration points at one declared in the same or an earlier section.
The header boilerplate precedes the claimed sections and is exempted as
a referencing source. -/
def backwardRefsOnly (decls : List Decl) : Bool :=
  decls.all (fun dcl => decide (dcl.sec = DocSection.header) ||
    dcl.refs.all (fun r =>
      !(decls.any (fun d2 => d2.name == r)) ||
        decls.any (fun d2 => d2.name == r && decide (d2.sec.rank ≤ dcl.sec.rank))))

/-- The claim's reference discipline evaluated on a document (none when
generation fails). -/
def assembledBackwardOnly (d : Document) : Option Bool :=
  (assembled d).toOption.map backwardRefsOnly

/-- A concrete document exercising the forward reference: entity `Team`
with a `findMany` mapping whose `where` argument names the input type
`TeamWhereInput`, declared only in the later input-type section. -/
def c9Doc : Document :=
  ⟨[⟨"Role", ["USER", "ADMIN"]⟩],
   [⟨"Team", [⟨"id", FieldKind.scalar, "Int", false, true⟩]⟩],
   [⟨"Team", [⟨"id", ⟨"Int", FieldKind.scalar, false, true⟩⟩]⟩],
   [⟨[("model", some "Team"), ("plural", some "teams"),
      ("findMany", some "findManyTeam")]⟩],
   [("findManyTeam", [⟨"where", [⟨"TeamWhereInput", FieldKind.object, false, false, true⟩],
      none⟩])],
   [⟨"TeamWhereInput", [⟨"id", [⟨"Int", FieldKind.scalar, false, false, false⟩], none⟩]⟩]⟩

/-- C9 counterexample: on the concrete `Team` document, the reference
discipline fails — the `TeamFindManyArgs` declaration, emitted in the
per-entity section, references `TeamWhereInput`, which is declared only
in the later input-type section; an earlier section references a later
one, so the "never the reverse" half of the claim is false. -/
theorem c9_order_counterexample :
    assembledBackwardOnly c9Doc = some false
    ∧ (((assembled c9Doc).toOption.getD []).find?
        (fun dc => dc.name == "TeamFindManyArgs")).map
        (fun dc => (dc.refs.contains "TeamWhereInput", dc.sec)) =
      some (true, DocSection.models)
    ∧ (((assembled c9Doc).toOption.getD []).find?
        (fun dc => dc.name == "TeamWhereInput")).map (fun dc => dc.sec) =
      some DocSection.inputs := by
  refine ⟨rfl, rfl, rfl⟩

theorem pairwise_rank_const (l : List Decl) (s : DocSection)
    (h : ∀ dc ∈ l, dc.sec = s) :
    List.Pairwise (fun (a b : Decl) => a.sec.rank ≤ b.sec.rank) l := by
  apply List.pairwise_of_forall_mem_list
  intro a ha b hb
  rw [h a ha, h b hb]

theorem modelsDecls_sec (d : Document) :
    ∀ (ms : List Model) (out : List Decl), modelsDecls d ms = Except.ok out →
      ∀ dc ∈ out, dc.sec = DocSection.models := by
  intro ms
  induction ms with
  | nil =>
    intro out h dc hdc
    have hout : ([] : List Decl) = out := Except.ok.inj h
    rw [← hout] at hdc
    cases hdc
  | cons m rest ih =>
    intro out h dc hdc
    unfold modelsDecls at h
    split at h
    next ds rest2 hmd hrest =>
      have hout : ds ++ rest2 = out := Except.ok.inj h
      rw [← hout] at hdc
      rcases List.mem_append.1 hdc with hmem | hmem
      · have hds : ∃ specs, argsTypes d.schemaFields (findMapping d.mappings m.name) m =
            Except.ok specs ∧ ds = (modelDeclPairs d m specs).map
              (fun p => ⟨p.1, p.2, DocSection.models⟩) := by
          unfold modelDecls at hmd
          cases hat : argsTypes d.schemaFields (findMapping d.mappings m.name) m with
          | error e =>
            rw [hat] at hmd
            simp [Except.map] at hmd
          | ok specs =>
            rw [hat] at hmd
            simp only [Except.map] at hmd
            exact ⟨specs, rfl, (Except.ok.inj hmd).symm⟩
        obtain ⟨specs, _, hds2⟩ := hds
        rw [hds2] at hmem
        obtain ⟨p, _, hp⟩ := List.mem_map.1 hmem
        rw [← hp]
      · exact ih rest2 hrest dc hmem
    next hne1 =>
      cases h
    next hne1 hne2 =>
      cases h

/-- C9 (amended): the assembled document's sections appear in the order
header boilerplate, enum declarations, per-entity declarations,
input-type declarations, trailing batch-result shape (the batch shape is
the final declaration); its reference discipline, however, is not purely
backward — entity-section argument types reference input-type names
declared in the later input-type section (forward references, legal in
the emitted declaration language), as the counterexample shows. -/
theorem c9_section_order (d : Document) (decls : List Decl)
    (h : assembled d = Except.ok decls) :
    List.Pairwise (fun (a b : Decl) => a.sec.rank ≤ b.sec.rank) decls
    ∧ decls.getLast? = some ⟨"BatchPayload", [], DocSection.batch⟩ := by
  obtain ⟨ms, hms, hdecls⟩ :
      ∃ ms, modelsDecls d d.models = Except.ok ms ∧
        decls =
          ⟨"PrismaClient",
            (d.mappings.filter (fun mp => truthyVal (mp.lookup "findMany"))).map
              (fun mp => (mp.lookup "model").getD "" ++ "Delegate"),
            DocSection.header⟩ ::
          (d.enums.map (fun e => ⟨e.name, [], DocSection.enums⟩) ++
            (ms ++
              (d.inputTypes.map (fun t =>
                ⟨t.name,
                 (inputTypeFields t).flatMap
                   (fun f => f.inputType.flatMap (inputCandPieces false)),
                 DocSection.inputs⟩) ++
                [⟨"BatchPayload", [], DocSection.batch⟩]))) := by
    unfold assembled at h
    cases hms : modelsDecls d d.models with
    | error e =>
      rw [hms] at h
      simp [Except.map] at h
    | ok ms =>
      rw [hms] at h
      simp only [Except.map] at h
      exact ⟨ms, rfl, (Except.ok.inj h).symm⟩
  have hE : ∀ dc ∈ d.enums.map (fun e => (⟨e.name, [], DocSection.enums⟩ : Decl)),
      dc.sec = DocSection.enums := by
    intro dc hdc
    obtain ⟨e, _, he⟩ := List.mem_map.1 hdc
    rw [← he]
  have hM : ∀ dc ∈ ms, dc.sec = DocSection.models := modelsDecls_sec d d.models ms hms
  have hI : ∀ dc ∈ d.inputTypes.map (fun t =>
      (⟨t.name, (inputTypeFields t).flatMap
        (fun f => f.inputType.flatMap (inputCandPieces false)),
        DocSection.inputs⟩ : Decl)), dc.sec = DocSection.inputs := by
    intro dc hdc
    obtain ⟨t, _, ht⟩ := List.mem_map.1 hdc
    rw [← ht]
  constructor
  · rw [hdecls]
    apply List.Pairwise.cons
    · intro b _
      exact Nat.zero_le _
    · apply List.pairwise_append.mpr
      refine ⟨pairwise_rank_const _ DocSection.enums hE, ?_, ?_⟩
      · apply List.pairwise_append.mpr
        refine ⟨pairwise_rank_const _ DocSection.models hM, ?_, ?_⟩
        · apply List.pairwise_append.mpr
          refine ⟨pairwise_rank_const _ DocSection.inputs hI, ?_, ?_⟩
          · exact List.pairwise_singleton _ _
          · intro a ha b hb
            rw [hI a ha, List.mem_singleton.1 hb]
            exact Nat.le_succ _
        · intro a ha b hb
          rw [hM a ha]
          rcases List.mem_append.1 hb with hb2 | hb2
          · rw [hI b hb2]
            exact Nat.le_succ _
          · rw [List.mem_singleton.1 hb2]
            exact by decide
      · intro a ha b hb
        rw [hE a ha]
        rcases List.mem_append.1 hb with hb2 | hb2
        · rw [hM b hb2]
          exact Nat.le_succ _
        · rcases List.mem_append.1 hb2 with hb3 | hb3
          · rw [hI b hb3]
            exact by decide
          · rw [List.mem_singleton.1 hb3]
            exact by decide
  · rw [hdecls]
    simp [List.getLast?_append, List.getLast?_cons]

/-- Witness for C9 (amended) at the concrete `Team` document: the
assembled declaration list is section-ordered and ends with the batch
shape. -/
theorem c9_section_order_witness :
    List.Pairwise (fun (a b : Decl) => a.sec.rank ≤ b.sec.rank)
      ((assembled c9Doc).toOption.getD [])
    ∧ ((assembled c9Doc).toOption.getD []).getLast? =
      some ⟨"BatchPayload", [], DocSection.batch⟩ := by
  obtain ⟨h1, h2⟩ := c9_section_order c9Doc ((assembled c9Doc).toOption.getD []) rfl
  exact ⟨h1, h2⟩

end Prisma
